import Mathlib

/-!
# Vectorised bitwise kernels `And`, `AndNot`, `Or`, `Xor` (simd/asm.go)

`generate(op)` emits one amd64 routine `func(a []uint64, b []uint64)` per
operator.  Every routine has the same three basic blocks

* `body`: while at least `4*unroll = 8` words remain, load two 256-bit lanes
  from `b`, combine them with the lanes of `a`, store them to `a`, advance both
  pointers by `blocksize = 64` bytes and the count by 8 words;
* `tail`: while the count is not zero, combine one word, advance by 8 bytes;
* `done`: `RET`.

The embedding below is the semantics of that emitted routine: a register file,
a heap of 64-bit words keyed by byte address, and one transition per basic
block.  Registers are naturals below `2^64`; `ADDQ`/`SUBQ` wrap, `JL` compares
signed.  A memory operand derived from a slice that leaves the slice's extent
makes the transition undefined (`none`).

`trace` lists the states at the successive labels of a run and `events` the
loop iterations among them; iteration counts, bounds, termination and the
pointer bookkeeping are stated over these.
-/

namespace Simd

/-- The `op` argument of `generate`: which routine is emitted. -/
inductive Op where
  | and
  | andnot
  | or
  | xor
  deriving DecidableEq, Repr

/-- Number of values of a 64-bit register. -/
def W64 : Nat := 18446744073709551616

/-- The constant `size`: bytes per YMM lane. -/
def size : Nat := 32

/-- The constant `unroll`: lanes per block. -/
def unroll : Nat := 2

/-- The constant `blocksize = size * unroll` (bytes per block). -/
def blocksize : Nat := size * unroll

/-- Go slice header of a `[]uint64` parameter: data pointer (a byte address)
and length in words. -/
structure Slice where
  base : Nat
  len : Nat
  deriving DecidableEq, Repr

/-- Memory: the 64-bit word stored at a byte address. -/
abbrev Heap := Nat → Nat

/-- A 256-bit YMM register seen as four 64-bit lanes, lowest address first. -/
structure YMM where
  q0 : Nat
  q1 : Nat
  q2 : Nat
  q3 : Nat
  deriving DecidableEq, Repr

/-- The labels of the emitted routine. -/
inductive Label where
  | body
  | tail
  | done
  deriving DecidableEq, Repr

/-- Machine state between basic blocks: heap, the pointer registers `a.Base`
and `b.Base`, the count register `n`, the scalar register `s`, and the label
control is at. -/
structure State where
  heap : Heap
  aBase : Nat
  bBase : Nat
  n : Nat
  s : Nat
  pc : Label

/-! ## Word and register arithmetic -/

/-- Bitwise complement of a 64-bit word. -/
def not64 (x : Nat) : Nat := W64 - 1 - x % W64

/-- Signed reading of a 64-bit register (two's complement). -/
def toInt64 (x : Nat) : Int :=
  if x % W64 < 9223372036854775808 then ((x % W64 : Nat) : Int)
  else ((x % W64 : Nat) : Int) - (W64 : Int)

/-- `ADDQ imm, r`: r := r + imm, wrapping. -/
def ADDQ (imm r : Nat) : Nat := (r + imm) % W64

/-- `SUBQ imm, r`: r := r - imm, wrapping. -/
def SUBQ (imm r : Nat) : Nat := (r % W64 + W64 - imm % W64) % W64

/-- `ANDQ m, r`: r := r AND m. -/
def ANDQ (m r : Nat) : Nat := r &&& m

/-- `ORQ m, r`: r := r OR m. -/
def ORQ (m r : Nat) : Nat := r ||| m

/-- `XORQ m, r`: r := r XOR m. -/
def XORQ (m r : Nat) : Nat := r ^^^ m

/-- `ANDNQ m, r, r1` (BMI1 `ANDN`): r1 := (NOT r) AND m. -/
def ANDNQ (m r : Nat) : Nat := not64 r &&& m

/-- `VPAND m, y, y1`: y1 := y AND m, lane by lane. -/
def VPAND (m y : YMM) : YMM :=
  ⟨y.q0 &&& m.q0, y.q1 &&& m.q1, y.q2 &&& m.q2, y.q3 &&& m.q3⟩

/-- `VPOR m, y, y1`: y1 := y OR m, lane by lane. -/
def VPOR (m y : YMM) : YMM :=
  ⟨y.q0 ||| m.q0, y.q1 ||| m.q1, y.q2 ||| m.q2, y.q3 ||| m.q3⟩

/-- `VPXOR m, y, y1`: y1 := y XOR m, lane by lane. -/
def VPXOR (m y : YMM) : YMM :=
  ⟨y.q0 ^^^ m.q0, y.q1 ^^^ m.q1, y.q2 ^^^ m.q2, y.q3 ^^^ m.q3⟩

/-- `VPANDN m, y, y1`: y1 := (NOT y) AND m, lane by lane. -/
def VPANDN (m y : YMM) : YMM :=
  ⟨not64 y.q0 &&& m.q0, not64 y.q1 &&& m.q1, not64 y.q2 &&& m.q2, not64 y.q3 &&& m.q3⟩

/-! ## Memory operands -/

/-- The 8 bytes at `addr` are an element of the slice `sl`. -/
def inBounds (sl : Slice) (addr : Nat) : Bool :=
  decide (sl.base ≤ addr) && decide (addr + 8 ≤ sl.base + 8 * sl.len)
    && decide ((addr - sl.base) % 8 = 0)

/-- Effective address of `Mem{Base: r}.Offset(disp)`. -/
def ea (r disp : Nat) : Nat := (r + disp) % W64

/-- 64-bit load through an operand derived from `sl`. -/
def load64 (h : Heap) (sl : Slice) (addr : Nat) : Option Nat :=
  if inBounds sl addr then some (h addr) else none

/-- The heap after writing the word `v` at `addr`. -/
def upd (h : Heap) (addr v : Nat) : Heap := fun p => if p = addr then v else h p

/-- 64-bit store through an operand derived from `sl`. -/
def store64 (h : Heap) (sl : Slice) (addr v : Nat) : Option Heap :=
  if inBounds sl addr then some (upd h addr v) else none

/-- 256-bit load (`VMOVUPD m, y`): four consecutive words. -/
def load256 (h : Heap) (sl : Slice) (addr : Nat) : Option YMM :=
  (load64 h sl addr).bind fun q0 =>
  (load64 h sl (addr + 8)).bind fun q1 =>
  (load64 h sl (addr + 16)).bind fun q2 =>
  (load64 h sl (addr + 24)).bind fun q3 =>
  some ⟨q0, q1, q2, q3⟩

/-- 256-bit store (`VMOVUPD y, m`): four consecutive words. -/
def store256 (h : Heap) (sl : Slice) (addr : Nat) (y : YMM) : Option Heap :=
  (store64 h sl addr y.q0).bind fun h0 =>
  (store64 h0 sl (addr + 8) y.q1).bind fun h1 =>
  (store64 h1 sl (addr + 16) y.q2).bind fun h2 =>
  store64 h2 sl (addr + 24) y.q3

/-! ## The emitted routine -/

/-- The vector instruction chosen by the `switch op` of the block loop. -/
def vectorOp : Op → YMM → YMM → YMM
  | .and => VPAND
  | .or => VPOR
  | .andnot => VPANDN
  | .xor => VPXOR

/-- The scalar instruction chosen by the `switch op` of the tail loop. -/
def scalarOp : Op → Nat → Nat → Nat
  | .and => ANDQ
  | .or => ORQ
  | .andnot => ANDNQ
  | .xor => XORQ

/-- Prologue: load `a.Base`, `b.Base` and `len(a)`, zero `s`, fall into `body`.
The length of `b` is never loaded. -/
def entry (h : Heap) (a b : Slice) : State :=
  { heap := h, aBase := a.base % W64, bBase := b.base % W64, n := a.len % W64,
    s := XORQ 0 0, pc := .body }

/-- One block iteration, after the guard at `body` fell through. -/
def bodyBlock (op : Op) (a b : Slice) (st : State) : Option State :=
  (load256 st.heap b (ea st.bBase (size * 0))).bind fun v0 =>
  (load256 st.heap b (ea st.bBase (size * 1))).bind fun v1 =>
  (load256 st.heap a (ea st.aBase (size * 0))).bind fun m0 =>
  let v0 := vectorOp op m0 v0
  (load256 st.heap a (ea st.aBase (size * 1))).bind fun m1 =>
  let v1 := vectorOp op m1 v1
  (store256 st.heap a (ea st.aBase (size * 0)) v0).bind fun h0 =>
  (store256 h0 a (ea st.aBase (size * 1)) v1).bind fun h1 =>
  some { st with heap := h1, aBase := ADDQ blocksize st.aBase,
                 bBase := ADDQ blocksize st.bBase, n := SUBQ (4 * unroll) st.n,
                 pc := .body }

/-- One tail iteration, after the guard at `tail` fell through. -/
def tailWord (op : Op) (a b : Slice) (st : State) : Option State :=
  (load64 st.heap b (ea st.bBase 0)).bind fun s =>
  (load64 st.heap a (ea st.aBase 0)).bind fun m =>
  let s := scalarOp op m s
  (store64 st.heap a (ea st.aBase 0) s).bind fun h =>
  some { st with heap := h, s := s, aBase := ADDQ 8 st.aBase,
                 bBase := ADDQ 8 st.bBase, n := SUBQ 1 st.n, pc := .tail }

/-- Execute the basic block at the current label. -/
def step (op : Op) (a b : Slice) (st : State) : Option State :=
  match st.pc with
  | .body =>
    -- CMPQ n, $8; JL tail
    if toInt64 st.n < 8 then some { st with pc := .tail }
    else bodyBlock op a b st
  | .tail =>
    -- CMPQ n, $0; JE done
    if st.n = 0 then some { st with pc := .done }
    else tailWord op a b st
  | .done => some st

/-- Run basic blocks until `done` (the `RET`), at most `fuel` of them. -/
def run (op : Op) (a b : Slice) : Nat → State → Option State
  | 0, st => if st.pc = .done then some st else none
  | fuel + 1, st =>
    if st.pc = .done then some st
    else (step op a b st).bind (run op a b fuel)

/-- The routine emitted by `generate(op)`, called on slices `a` and `b` in heap
`h`: the heap at `RET`, or `none` when an access left its slice.  A run
executes at most `len(a) + 2` basic blocks. -/
def generate (op : Op) (h : Heap) (a b : Slice) : Option Heap :=
  (run op a b (a.len % W64 + 2) (entry h a b)).map State.heap

/-- `func And(a []uint64, b []uint64)`. -/
def And (h : Heap) (a b : Slice) : Option Heap := generate .and h a b

/-- `func Or(a []uint64, b []uint64)`. -/
def Or (h : Heap) (a b : Slice) : Option Heap := generate .or h a b

/-- `func AndNot(a []uint64, b []uint64)`. -/
def AndNot (h : Heap) (a b : Slice) : Option Heap := generate .andnot h a b

/-- `func Xor(a []uint64, b []uint64)`. -/
def Xor (h : Heap) (a b : Slice) : Option Heap := generate .xor h a b

/-! ## Reading buffers -/

/-- Word `i` of the slice `sl` in heap `h`. -/
def word (h : Heap) (sl : Slice) (i : Nat) : Nat := h (sl.base + 8 * i)

/-- The contents of a slice as a list of words. -/
def readSlice (h : Heap) (sl : Slice) : List Nat :=
  (List.range sl.len).map (word h sl)

/-- A heap holding the words `ws` at byte addresses 0, 8, 16, ... -/
def heapOf (ws : List Nat) : Heap := fun p => if p % 8 = 0 then ws.getD (p / 8) 0 else 0

/-- A slice lies inside the 64-bit address space (true of every Go slice). -/
def Slice.Valid (sl : Slice) : Prop := sl.base + 8 * sl.len < W64

instance (sl : Slice) : Decidable sl.Valid :=
  inferInstanceAs (Decidable (sl.base + 8 * sl.len < W64))

/-- The two buffers occupy disjoint byte ranges. -/
def Separate (a b : Slice) : Prop :=
  a.base + 8 * a.len ≤ b.base ∨ b.base + 8 * b.len ≤ a.base

instance (a b : Slice) : Decidable (Separate a b) :=
  inferInstanceAs (Decidable (a.base + 8 * a.len ≤ b.base ∨ b.base + 8 * b.len ≤ a.base))

/-! ## Specification vocabulary -/

/-- The per-word function of each operator: destination word first, source word second. -/
def wordOp : Op → Nat → Nat → Nat
  | .and, x, y => x &&& y
  | .or, x, y => x ||| y
  | .andnot, x, y => x &&& not64 y
  | .xor, x, y => x ^^^ y

/-- The heap in which the first `k` words of `a` have been combined with the
corresponding words of `b` (read from `h`) and everything else is as in `h`. -/
def applyPrefix (op : Op) (h : Heap) (a b : Slice) (k : Nat) : Heap := fun p =>
  if a.base ≤ p ∧ p < a.base + 8 * k ∧ (p - a.base) % 8 = 0 then
    wordOp op (h p) (h (b.base + (p - a.base)))
  else h p

/-- Loop invariant: `k` words are done, the pointers are `k` words in, and `n`
words remain. -/
structure Inv (op : Op) (h : Heap) (a b : Slice) (k : Nat) (st : State) : Prop where
  heap : st.heap = applyPrefix op h a b k
  aBase : st.aBase = a.base + 8 * k
  bBase : st.bBase = b.base + 8 * k
  count : st.n + k = a.len

/-! ## The algorithm of the specification, on lists of words -/

/-- Scalar reference loop: with `rem` words left at offset `off`, combine one
word of the destination with the source word at the same offset, advance by one. -/
def scalarLoop (f : Nat → Nat → Nat) (src : List Nat) : Nat → Nat → List Nat → List Nat
  | 0, _, dst => dst
  | rem + 1, off, dst =>
    scalarLoop f src rem (off + 1) (dst.set off (f (dst.getD off 0) (src.getD off 0)))

/-- Pure word-at-a-time reference implementation over all words of the destination. -/
def scalarRef (op : Op) (dst src : List Nat) : List Nat :=
  scalarLoop (wordOp op) src dst.length 0 dst

/-- One bulk iteration of the algorithm of the specification with block size `B`:
load `B` words of the source at `off`, combine them lane-wise with the `B`
destination words at `off`, store the result at `off`. -/
def blockApply (f : Nat → Nat → Nat) (src : List Nat) (B off : Nat) (dst : List Nat) : List Nat :=
  dst.take off ++ List.zipWith f ((dst.drop off).take B) ((src.drop off).take B)
    ++ dst.drop (off + B)

/-- Block loop of the specification: while at least `B` words remain, process one
block, advance the offset by `B` and decrease the count by `B`.  Returns offset,
remaining count and destination. -/
def blockLoop (f : Nat → Nat → Nat) (src : List Nat) (B : Nat) :
    Nat → Nat → Nat → List Nat → Nat × Nat × List Nat
  | 0, off, rem, dst => (off, rem, dst)
  | fuel + 1, off, rem, dst =>
    if B ≤ rem then blockLoop f src B fuel (off + B) (rem - B) (blockApply f src B off dst)
    else (off, rem, dst)

/-- The two-phase algorithm of the specification with block size `B`: block loop,
then scalar tail over what remains. -/
def twoPhase (B : Nat) (op : Op) (dst src : List Nat) : List Nat :=
  let r := blockLoop (wordOp op) src B dst.length 0 dst.length dst
  scalarLoop (wordOp op) src r.2.1 r.1 r.2.2

/-- Destination in which the first `off` words are combined and the rest untouched. -/
def mixed (f : Nat → Nat → Nat) (dst src : List Nat) (off : Nat) : List Nat :=
  (List.zipWith f dst src).take off ++ dst.drop off

/-! ## Traces of a call -/

/-- The states at the successive labels of a run: the state a basic block starts
from, followed by the trace from the state it ends in.  Stops at `done`, at an
access outside its slice, or after `fuel` basic blocks. -/
def trace (op : Op) (a b : Slice) : Nat → State → List State
  | 0, st => [st]
  | fuel + 1, st =>
    if st.pc = .done then [st]
    else match step op a b st with
      | none => [st]
      | some st' => st :: trace op a b fuel st'

/-- The states at the successive labels of a call, from the prologue on. -/
def states (op : Op) (h : Heap) (a b : Slice) : List State :=
  trace op a b (a.len % W64 + 2) (entry h a b)

/-- A loop iteration, with the values of `a.Base` and `b.Base` it starts from:
one pass through the block loop or one pass through the tail loop. -/
inductive Event where
  | block (aAddr bAddr : Nat)
  | word (aAddr bAddr : Nat)
  deriving DecidableEq, Repr

/-- The iteration the basic block at the current label performs, if its guard
falls through (`JL tail` not taken at `body`, `JE done` not taken at `tail`). -/
def iteration (st : State) : Option Event :=
  match st.pc with
  | .body => if toInt64 st.n < 8 then none else some (.block st.aBase st.bBase)
  | .tail => if st.n = 0 then none else some (.word st.aBase st.bBase)
  | .done => none

/-- The loop iterations of a call, in order. -/
def events (op : Op) (h : Heap) (a b : Slice) : List Event :=
  (states op h a b).filterMap iteration

/-- Register part of the loop invariant: both pointers are `k` words into their
buffers and `n` holds the number of words of `a` still to do. -/
structure RegInv (a b : Slice) (k : Nat) (st : State) : Prop where
  aBase : st.aBase = a.base + 8 * k
  bBase : st.bBase = b.base + 8 * k
  count : st.n + k = a.len

/-- What holds at every label of a run: the register invariant, fewer than 8
words left once in the tail loop, none left at `RET`. -/
structure Reach (a b : Slice) (st : State) : Prop where
  regs : ∃ k, RegInv a b k st
  tail : st.pc = .tail → st.n < 8
  done : st.pc = .done → st.n = 0

/-- How the registers move across one basic block: a block iteration advances
both pointers by `blocksize` bytes and takes `4 * unroll` words off the count; a
tail iteration advances both pointers by 8 bytes and takes one word off; a
guard that jumps leaves them alone. -/
def Advance (s t : State) : Prop :=
  match iteration s with
  | some (.block _ _) =>
    t.aBase = s.aBase + blocksize ∧ t.bBase = s.bBase + blocksize ∧ t.n + 4 * unroll = s.n
  | some (.word _ _) => t.aBase = s.aBase + 8 ∧ t.bBase = s.bBase + 8 ∧ t.n + 1 = s.n
  | none => t.aBase = s.aBase ∧ t.bBase = s.bBase ∧ t.n = s.n

/-- The event is a block-loop iteration. -/
def Event.isBlock : Event → Bool
  | .block _ _ => true
  | .word _ _ => false

/-- The event is a tail-loop iteration. -/
def Event.isWord : Event → Bool
  | .block _ _ => false
  | .word _ _ => true

/-! ## Instruction and memory lemmas -/

theorem scalarOp_eq (op : Op) (m s : Nat) : scalarOp op m s = wordOp op m s := by
  cases op <;> simp [scalarOp, wordOp, ANDQ, ORQ, XORQ, ANDNQ, Nat.land_comm, Nat.lor_comm,
    Nat.xor_comm]

theorem vectorOp_eq (op : Op) (m y : YMM) :
    vectorOp op m y = ⟨wordOp op m.q0 y.q0, wordOp op m.q1 y.q1, wordOp op m.q2 y.q2,
      wordOp op m.q3 y.q3⟩ := by
  cases op <;> simp [vectorOp, wordOp, VPAND, VPOR, VPXOR, VPANDN, Nat.land_comm, Nat.lor_comm,
    Nat.xor_comm]

theorem inBounds_of {sl : Slice} {addr : Nat} (h1 : sl.base ≤ addr)
    (h2 : addr + 8 ≤ sl.base + 8 * sl.len) (h3 : (addr - sl.base) % 8 = 0) :
    inBounds sl addr = true := by
  simp [inBounds, h1, h2, h3]

theorem load64_eq (h : Heap) {sl : Slice} {addr : Nat} (h1 : sl.base ≤ addr)
    (h2 : addr + 8 ≤ sl.base + 8 * sl.len) (h3 : (addr - sl.base) % 8 = 0) :
    load64 h sl addr = some (h addr) := by
  simp [load64, inBounds_of h1 h2 h3]

theorem store64_eq (h : Heap) {sl : Slice} {addr : Nat} (v : Nat) (h1 : sl.base ≤ addr)
    (h2 : addr + 8 ≤ sl.base + 8 * sl.len) (h3 : (addr - sl.base) % 8 = 0) :
    store64 h sl addr v = some (upd h addr v) := by
  simp [store64, inBounds_of h1 h2 h3]

theorem load256_eq (h : Heap) {sl : Slice} {addr : Nat} (h1 : sl.base ≤ addr)
    (h2 : addr + 32 ≤ sl.base + 8 * sl.len) (h3 : (addr - sl.base) % 8 = 0) :
    load256 h sl addr = some ⟨h addr, h (addr + 8), h (addr + 16), h (addr + 24)⟩ := by
  unfold load256
  rw [load64_eq h h1 (by omega) h3, load64_eq h (by omega) (by omega) (by omega),
    load64_eq h (by omega) (by omega) (by omega), load64_eq h (by omega) (by omega) (by omega)]
  rfl

theorem store256_eq (h : Heap) {sl : Slice} {addr : Nat} (y : YMM) (h1 : sl.base ≤ addr)
    (h2 : addr + 32 ≤ sl.base + 8 * sl.len) (h3 : (addr - sl.base) % 8 = 0) :
    store256 h sl addr y
      = some (upd (upd (upd (upd h addr y.q0) (addr + 8) y.q1) (addr + 16) y.q2)
          (addr + 24) y.q3) := by
  unfold store256
  rw [store64_eq h _ h1 (by omega) h3]
  simp only [Option.some_bind]
  rw [store64_eq _ _ (by omega) (by omega) (by omega)]
  simp only [Option.some_bind]
  rw [store64_eq _ _ (by omega) (by omega) (by omega)]
  simp only [Option.some_bind]
  rw [store64_eq _ _ (by omega) (by omega) (by omega)]

theorem applyPrefix_zero (op : Op) (h : Heap) (a b : Slice) : applyPrefix op h a b 0 = h := by
  funext p
  unfold applyPrefix
  rw [if_neg]
  omega

theorem applyPrefix_ge (op : Op) (h : Heap) (a b : Slice) (k p : Nat)
    (hp : a.base + 8 * k ≤ p) : applyPrefix op h a b k p = h p := by
  unfold applyPrefix
  rw [if_neg]
  omega

theorem applyPrefix_lt (op : Op) (h : Heap) (a b : Slice) (k p : Nat)
    (hp : p < a.base) : applyPrefix op h a b k p = h p := by
  unfold applyPrefix
  rw [if_neg]
  omega

theorem applyPrefix_succ (op : Op) (h : Heap) (a b : Slice) (k addr v : Nat)
    (haddr : addr = a.base + 8 * k) (hv : v = wordOp op (h addr) (h (b.base + 8 * k))) :
    upd (applyPrefix op h a b k) addr v = applyPrefix op h a b (k + 1) := by
  funext p
  subst haddr hv
  unfold upd applyPrefix
  by_cases hp : p = a.base + 8 * k
  · subst hp
    rw [if_pos rfl, if_pos (by omega)]
    congr 2
    omega
  · rw [if_neg hp]
    by_cases hc : a.base ≤ p ∧ p < a.base + 8 * k ∧ (p - a.base) % 8 = 0
    · rw [if_pos hc, if_pos (by omega)]
    · rw [if_neg hc, if_neg (by omega)]


/-- Source words not yet combined are still as in `h`, whether `b` is `a`
itself or disjoint from it. -/
theorem applyPrefix_src (op : Op) (h : Heap) (a b : Slice) (k i : Nat)
    (hc : a.base = b.base ∨ Separate a b) (hk : k ≤ a.len) (hki : k ≤ i) (hi : i < b.len) :
    applyPrefix op h a b k (b.base + 8 * i) = h (b.base + 8 * i) := by
  unfold Separate at hc
  rcases hc with hc | hc | hc
  · exact applyPrefix_ge op h a b k _ (by omega)
  · exact applyPrefix_ge op h a b k _ (by omega)
  · exact applyPrefix_lt op h a b k _ (by omega)

theorem toInt64_small {x : Nat} (hx : x < 9223372036854775808) : toInt64 x = (x : Int) := by
  have h1 : x % W64 = x := Nat.mod_eq_of_lt (by unfold W64; omega)
  unfold toInt64
  rw [h1, if_pos hx]

theorem inv_entry (op : Op) (h : Heap) (a b : Slice) (ha : a.Valid) (hb : b.Valid) :
    Inv op h a b 0 (entry h a b) := by
  unfold Slice.Valid W64 at ha hb
  refine ⟨?_, ?_, ?_, ?_⟩
  · exact (applyPrefix_zero op h a b).symm
  · show a.base % W64 = a.base + 8 * 0
    unfold W64; omega
  · show b.base % W64 = b.base + 8 * 0
    unfold W64; omega
  · show a.len % W64 + 0 = a.len
    unfold W64; omega

theorem tailWord_inv (op : Op) (h : Heap) (a b : Slice) (k : Nat) (st : State)
    (ha : a.Valid) (hb : b.Valid) (hlen : a.len ≤ b.len)
    (hc : a.base = b.base ∨ Separate a b) (hinv : Inv op h a b k st) (hn : st.n ≠ 0) :
    ∃ st', tailWord op a b st = some st' ∧ Inv op h a b (k + 1) st' ∧ st'.pc = .tail := by
  obtain ⟨hh, hA, hB, hcount⟩ := hinv
  unfold Slice.Valid W64 at ha hb
  have eA : ea st.aBase 0 = a.base + 8 * k := by
    unfold ea W64; rw [hA]; omega
  have eB : ea st.bBase 0 = b.base + 8 * k := by
    unfold ea W64; rw [hB]; omega
  unfold tailWord
  rw [eA, eB, load64_eq _ (by omega) (by omega) (by omega),
    load64_eq _ (by omega) (by omega) (by omega)]
  simp only [Option.some_bind]
  rw [store64_eq _ _ (by omega) (by omega) (by omega)]
  simp only [Option.some_bind]
  refine ⟨_, rfl, ⟨?_, ?_, ?_, ?_⟩, rfl⟩
  · show upd st.heap _ _ = _
    rw [hh, scalarOp_eq]
    apply applyPrefix_succ op h a b k _ _ rfl
    rw [applyPrefix_ge op h a b k _ (le_refl _),
      applyPrefix_src op h a b k k hc (by omega) (le_refl _) (by omega)]
  · show ADDQ 8 st.aBase = _
    unfold ADDQ W64; rw [hA]; omega
  · show ADDQ 8 st.bBase = _
    unfold ADDQ W64; rw [hB]; omega
  · show SUBQ 1 st.n + (k + 1) = a.len
    unfold SUBQ W64; omega


theorem bodyBlock_inv (op : Op) (h : Heap) (a b : Slice) (k : Nat) (st : State)
    (ha : a.Valid) (hb : b.Valid) (hlen : a.len ≤ b.len)
    (hc : a.base = b.base ∨ Separate a b) (hinv : Inv op h a b k st) (hn : 8 ≤ st.n) :
    ∃ st', bodyBlock op a b st = some st' ∧ Inv op h a b (k + 8) st' ∧ st'.pc = .body := by
  obtain ⟨hh, hA, hB, hcount⟩ := hinv
  unfold Slice.Valid W64 at ha hb
  have eA0 : ea st.aBase (size * 0) = a.base + 8 * k := by
    unfold ea W64 size; rw [hA]; omega
  have eA1 : ea st.aBase (size * 1) = a.base + 8 * k + 32 := by
    unfold ea W64 size; rw [hA]; omega
  have eB0 : ea st.bBase (size * 0) = b.base + 8 * k := by
    unfold ea W64 size; rw [hB]; omega
  have eB1 : ea st.bBase (size * 1) = b.base + 8 * k + 32 := by
    unfold ea W64 size; rw [hB]; omega
  have src : ∀ j, j < 8 → st.heap (b.base + 8 * k + 8 * j) = h (b.base + 8 * (k + j)) := by
    intro j hj
    rw [hh, show b.base + 8 * k + 8 * j = b.base + 8 * (k + j) by omega]
    exact applyPrefix_src op h a b k (k + j) hc (by omega) (by omega) (by omega)
  have dst : ∀ j, st.heap (a.base + 8 * k + 8 * j) = h (a.base + 8 * k + 8 * j) := by
    intro j
    rw [hh]
    exact applyPrefix_ge op h a b k _ (by omega)
  unfold bodyBlock
  rw [eA0, eA1, eB0, eB1, load256_eq _ (by omega) (by omega) (by omega),
    load256_eq _ (by omega) (by omega) (by omega)]
  simp only [Option.some_bind]
  rw [load256_eq _ (by omega) (by omega) (by omega),
    load256_eq _ (by omega) (by omega) (by omega)]
  simp only [Option.some_bind]
  rw [store256_eq _ _ (by omega) (by omega) (by omega)]
  simp only [Option.some_bind]
  rw [store256_eq _ _ (by omega) (by omega) (by omega)]
  simp only [Option.some_bind]
  refine ⟨_, rfl, ⟨?_, ?_, ?_, ?_⟩, rfl⟩
  · simp only [vectorOp_eq]
    have s0 := src 0 (by omega)
    have s1 := src 1 (by omega)
    have s2 := src 2 (by omega)
    have s3 := src 3 (by omega)
    have s4 := src 4 (by omega)
    have s5 := src 5 (by omega)
    have s6 := src 6 (by omega)
    have s7 := src 7 (by omega)
    have d0 := dst 0
    have d1 := dst 1
    have d2 := dst 2
    have d3 := dst 3
    have d4 := dst 4
    have d5 := dst 5
    have d6 := dst 6
    have d7 := dst 7
    simp only [Nat.mul_zero, Nat.add_zero, Nat.mul_one, Nat.add_assoc, Nat.reduceMul,
      Nat.reduceAdd] at s0 s1 s2 s3 s4 s5 s6 s7 d0 d1 d2 d3 d4 d5 d6 d7 ⊢
    rw [s0, s1, s2, s3, s4, s5, s6, s7, d0, d1, d2, d3, d4, d5, d6, d7, hh]
    rw [applyPrefix_succ op h a b k (a.base + 8 * k) _ rfl rfl,
      applyPrefix_succ op h a b (k + 1) (a.base + (8 * k + 8)) _ (by omega) rfl,
      applyPrefix_succ op h a b (k + 2) (a.base + (8 * k + 16)) _ (by omega) rfl,
      applyPrefix_succ op h a b (k + 3) (a.base + (8 * k + 24)) _ (by omega) rfl,
      applyPrefix_succ op h a b (k + 4) (a.base + (8 * k + 32)) _ (by omega) rfl,
      applyPrefix_succ op h a b (k + 5) (a.base + (8 * k + 40)) _ (by omega) rfl,
      applyPrefix_succ op h a b (k + 6) (a.base + (8 * k + 48)) _ (by omega) rfl,
      applyPrefix_succ op h a b (k + 7) (a.base + (8 * k + 56)) _ (by omega) rfl]
  · show ADDQ blocksize st.aBase = _
    unfold ADDQ W64 blocksize size unroll; rw [hA]; omega
  · show ADDQ blocksize st.bBase = _
    unfold ADDQ W64 blocksize size unroll; rw [hB]; omega
  · show SUBQ (4 * unroll) st.n + (k + 8) = a.len
    unfold SUBQ W64 unroll; omega


theorem run_done (op : Op) (a b : Slice) (fuel : Nat) (st : State) (hpc : st.pc = .done) :
    run op a b fuel st = some st := by
  cases fuel <;> simp [run, hpc]

theorem run_step (op : Op) (a b : Slice) (fuel : Nat) (st st' : State) (hpc : st.pc ≠ .done)
    (hs : step op a b st = some st') :
    run op a b (fuel + 1) st = run op a b fuel st' := by
  simp [run, hpc, hs]

theorem step_tail_exit (op : Op) (a b : Slice) (st : State) (hpc : st.pc = .tail)
    (hn : st.n = 0) : step op a b st = some { st with pc := .done } := by
  simp [step, hpc, hn]

theorem step_tail_word (op : Op) (a b : Slice) (st : State) (hpc : st.pc = .tail)
    (hn : st.n ≠ 0) : step op a b st = tailWord op a b st := by
  simp [step, hpc, hn]

theorem step_body_exit (op : Op) (a b : Slice) (st : State) (hpc : st.pc = .body)
    (hn : st.n < 8) : step op a b st = some { st with pc := .tail } := by
  have h8 : toInt64 st.n < 8 := by
    rw [toInt64_small (by omega)]; omega
  simp [step, hpc, h8]

theorem step_body_block (op : Op) (a b : Slice) (st : State) (hpc : st.pc = .body)
    (hn : 8 ≤ st.n) (hlt : st.n < 9223372036854775808) :
    step op a b st = bodyBlock op a b st := by
  have h8 : ¬ toInt64 st.n < 8 := by
    rw [toInt64_small hlt]; omega
  simp [step, hpc, h8]

/-- From the head of the tail loop the routine reaches `RET` with all words combined. -/
theorem run_tail (op : Op) (h : Heap) (a b : Slice) (ha : a.Valid) (hb : b.Valid)
    (hlen : a.len ≤ b.len) (hc : a.base = b.base ∨ Separate a b) :
    ∀ (m k : Nat) (st : State) (fuel : Nat), Inv op h a b k st → st.pc = .tail → st.n = m →
      m + 1 ≤ fuel →
      ∃ st', run op a b fuel st = some st' ∧ Inv op h a b a.len st' ∧ st'.pc = .done
        ∧ st'.n = 0 := by
  intro m
  induction m with
  | zero =>
    intro k st fuel hinv hpc hn hfuel
    obtain ⟨f, rfl⟩ : ∃ f, fuel = f + 1 := ⟨fuel - 1, by omega⟩
    refine ⟨{ st with pc := .done }, ?_, ?_, rfl, hn⟩
    · rw [run_step op a b f st _ (by simp [hpc]) (step_tail_exit op a b st hpc hn)]
      exact run_done op a b f _ rfl
    · have hk : k = a.len := by have := hinv.count; omega
      subst hk
      exact ⟨hinv.heap, hinv.aBase, hinv.bBase, hinv.count⟩
  | succ m ih =>
    intro k st fuel hinv hpc hn hfuel
    obtain ⟨f, rfl⟩ : ∃ f, fuel = f + 1 := ⟨fuel - 1, by omega⟩
    obtain ⟨st1, hs, hinv1, hpc1⟩ :=
      tailWord_inv op h a b k st ha hb hlen hc hinv (by omega)
    rw [run_step op a b f st st1 (by simp [hpc])
      (by rw [step_tail_word op a b st hpc (by omega)]; exact hs)]
    exact ih (k + 1) st1 f hinv1 hpc1 (by have := hinv.count; have := hinv1.count; omega)
      (by omega)

/-- From the head of the block loop the routine reaches `RET` with all words combined. -/
theorem run_body (op : Op) (h : Heap) (a b : Slice) (ha : a.Valid) (hb : b.Valid)
    (hlen : a.len ≤ b.len) (hc : a.base = b.base ∨ Separate a b) :
    ∀ (q k : Nat) (st : State) (fuel : Nat), Inv op h a b k st → st.pc = .body → st.n / 8 = q →
      st.n / 8 + st.n % 8 + 2 ≤ fuel →
      ∃ st', run op a b fuel st = some st' ∧ Inv op h a b a.len st' ∧ st'.pc = .done
        ∧ st'.n = 0 := by
  intro q
  induction q with
  | zero =>
    intro k st fuel hinv hpc hq hfuel
    obtain ⟨f, rfl⟩ : ∃ f, fuel = f + 1 := ⟨fuel - 1, by omega⟩
    rw [run_step op a b f st _ (by simp [hpc]) (step_body_exit op a b st hpc (by omega))]
    exact run_tail op h a b ha hb hlen hc st.n k { st with pc := .tail } f
      ⟨hinv.heap, hinv.aBase, hinv.bBase, hinv.count⟩ rfl rfl (by omega)
  | succ q ih =>
    intro k st fuel hinv hpc hq hfuel
    obtain ⟨f, rfl⟩ : ∃ f, fuel = f + 1 := ⟨fuel - 1, by omega⟩
    have hv := ha
    unfold Slice.Valid W64 at hv
    have hcount := hinv.count
    obtain ⟨st1, hs, hinv1, hpc1⟩ :=
      bodyBlock_inv op h a b k st ha hb hlen hc hinv (by omega)
    rw [run_step op a b f st st1 (by simp [hpc])
      (by rw [step_body_block op a b st hpc (by omega) (by omega)]; exact hs)]
    have hcount1 := hinv1.count
    exact ih (k + 8) st1 f hinv1 hpc1 (by omega) (by omega)

/-- The routine returns, and the heap at `RET` is the input heap with every word of
`a` combined with the word of `b` at the same index. -/
theorem generate_eq (op : Op) (h : Heap) (a b : Slice) (ha : a.Valid) (hb : b.Valid)
    (hlen : a.len ≤ b.len) (hc : a.base = b.base ∨ Separate a b) :
    generate op h a b = some (applyPrefix op h a b a.len) := by
  have hv := ha
  unfold Slice.Valid W64 at hv
  have hn : (entry h a b).n = a.len := by
    show a.len % W64 = a.len
    unfold W64; omega
  obtain ⟨st', hrun, hinv, -, -⟩ :=
    run_body op h a b ha hb hlen hc ((entry h a b).n / 8) 0 (entry h a b) (a.len % W64 + 2)
      (inv_entry op h a b ha hb) rfl rfl (by rw [hn]; unfold W64; omega)
  unfold generate
  rw [hrun]
  simp [hinv.heap]

/-! ## Reading the result -/

theorem word_applyPrefix (op : Op) (h : Heap) (a b : Slice) (i : Nat) (hi : i < a.len) :
    word (applyPrefix op h a b a.len) a i = wordOp op (word h a i) (word h b i) := by
  unfold word applyPrefix
  rw [if_pos (by omega)]
  congr 2
  omega

theorem applyPrefix_outside (op : Op) (h : Heap) (a b : Slice) (k p : Nat)
    (hp : p < a.base ∨ a.base + 8 * k ≤ p) : applyPrefix op h a b k p = h p := by
  rcases hp with hp | hp
  · exact applyPrefix_lt op h a b k p hp
  · exact applyPrefix_ge op h a b k p hp

theorem readSlice_length (h : Heap) (sl : Slice) : (readSlice h sl).length = sl.len := by
  simp [readSlice]

theorem readSlice_getElem (h : Heap) (sl : Slice) (i : Nat) (hi : i < (readSlice h sl).length) :
    (readSlice h sl)[i] = word h sl i := by
  simp [readSlice]

theorem readSlice_congr (h h' : Heap) (sl : Slice)
    (hw : ∀ i, i < sl.len → word h' sl i = word h sl i) : readSlice h' sl = readSlice h sl := by
  unfold readSlice
  apply List.map_congr_left
  intro i hi
  exact hw i (List.mem_range.mp hi)

/-! ## The list algorithms -/

theorem mixed_zero (f : Nat → Nat → Nat) (dst src : List Nat) : mixed f dst src 0 = dst := by
  simp [mixed]

theorem mixed_full (f : Nat → Nat → Nat) (dst src : List Nat) :
    mixed f dst src dst.length = List.zipWith f dst src := by
  unfold mixed
  rw [List.drop_length, List.append_nil, List.take_of_length_le]
  simp [List.length_zipWith]

theorem blockApply_mixed (f : Nat → Nat → Nat) (dst src : List Nat) (B off : Nat)
    (hlen : dst.length ≤ src.length) (hoff : off + B ≤ dst.length) :
    blockApply f src B off (mixed f dst src off) = mixed f dst src (off + B) := by
  have hz : (List.zipWith f dst src).length = dst.length := by
    rw [List.length_zipWith]; omega
  have hl : ((List.zipWith f dst src).take off).length = off := by
    rw [List.length_take]; omega
  unfold blockApply mixed
  rw [List.take_left' hl, List.drop_left' hl]
  have hd : List.drop (off + B) (List.take off (List.zipWith f dst src) ++ List.drop off dst)
      = List.drop (off + B) dst := by
    rw [List.drop_append_eq_append_drop, hl, List.drop_drop]
    rw [List.drop_of_length_le (by rw [hl]; omega)]
    simp
  rw [hd, List.take_add, ← List.take_zipWith, ← List.drop_zipWith]


theorem mixed_length (f : Nat → Nat → Nat) (dst src : List Nat) (off : Nat)
    (hlen : dst.length ≤ src.length) (hoff : off ≤ dst.length) :
    (mixed f dst src off).length = dst.length := by
  unfold mixed
  rw [List.length_append, List.length_take, List.length_drop, List.length_zipWith]
  omega

theorem mixed_getD (f : Nat → Nat → Nat) (dst src : List Nat) (off : Nat)
    (hlen : dst.length ≤ src.length) (hoff : off ≤ dst.length) :
    (mixed f dst src off).getD off 0 = dst.getD off 0 := by
  have hl : ((List.zipWith f dst src).take off).length = off := by
    rw [List.length_take, List.length_zipWith]; omega
  unfold mixed
  simp only [List.getD_eq_getElem?_getD]
  rw [List.getElem?_append_right (by omega), hl, Nat.sub_self, List.getElem?_drop]
  simp

theorem set_eq_blockApply (f : Nat → Nat → Nat) (src dst : List Nat) (off : Nat)
    (hd : off < dst.length) (hs : off < src.length) :
    dst.set off (f (dst.getD off 0) (src.getD off 0)) = blockApply f src 1 off dst := by
  have e1 : List.take 1 (List.drop off dst) = [dst[off]] := by
    rw [List.drop_eq_getElem_cons hd]; rfl
  have e2 : List.take 1 (List.drop off src) = [src[off]] := by
    rw [List.drop_eq_getElem_cons hs]; rfl
  unfold blockApply
  rw [e1, e2, List.set_eq_take_append_cons_drop, if_pos hd, List.getD_eq_getElem _ _ hd,
    List.getD_eq_getElem _ _ hs]
  simp

theorem scalarLoop_mixed (f : Nat → Nat → Nat) (dst src : List Nat)
    (hlen : dst.length ≤ src.length) :
    ∀ (rem off : Nat), off + rem = dst.length →
      scalarLoop f src rem off (mixed f dst src off) = List.zipWith f dst src := by
  intro rem
  induction rem with
  | zero =>
    intro off hoff
    have : off = dst.length := by omega
    subst this
    exact mixed_full f dst src
  | succ rem ih =>
    intro off hoff
    show scalarLoop f src rem (off + 1) _ = _
    rw [set_eq_blockApply f src _ off (by rw [mixed_length f dst src off hlen (by omega)]; omega)
      (by omega), blockApply_mixed f dst src 1 off hlen (by omega)]
    exact ih (off + 1) (by omega)

theorem blockLoop_mixed (f : Nat → Nat → Nat) (dst src : List Nat) (B : Nat) (hB : 1 ≤ B)
    (hlen : dst.length ≤ src.length) :
    ∀ (fuel off rem : Nat), off + rem = dst.length → rem ≤ fuel →
      ∃ off' rem', blockLoop f src B fuel off rem (mixed f dst src off)
          = (off', rem', mixed f dst src off') ∧ off' + rem' = dst.length ∧ rem' < B := by
  intro fuel
  induction fuel with
  | zero =>
    intro off rem hoff hfuel
    exact ⟨off, rem, rfl, hoff, by omega⟩
  | succ fuel ih =>
    intro off rem hoff hfuel
    by_cases hr : B ≤ rem
    · obtain ⟨off', rem', h1, h2, h3⟩ := ih (off + B) (rem - B) (by omega) (by omega)
      refine ⟨off', rem', ?_, h2, h3⟩
      show (if B ≤ rem then _ else _) = _
      rw [if_pos hr, blockApply_mixed f dst src B off hlen (by omega)]
      exact h1
    · refine ⟨off, rem, ?_, hoff, by omega⟩
      show (if B ≤ rem then _ else _) = _
      rw [if_neg hr]

/-- The two-phase algorithm computes the word-wise combination, whatever the block size. -/
theorem twoPhase_eq (B : Nat) (hB : 1 ≤ B) (op : Op) (dst src : List Nat)
    (hlen : dst.length ≤ src.length) :
    twoPhase B op dst src = List.zipWith (wordOp op) dst src := by
  obtain ⟨off', rem', h1, h2, -⟩ :=
    blockLoop_mixed (wordOp op) dst src B hB hlen dst.length 0 dst.length (by omega) (le_refl _)
  unfold twoPhase
  rw [mixed_zero] at h1
  rw [h1]
  exact scalarLoop_mixed (wordOp op) dst src hlen rem' off' h2

theorem scalarRef_eq (op : Op) (dst src : List Nat) (hlen : dst.length ≤ src.length) :
    scalarRef op dst src = List.zipWith (wordOp op) dst src := by
  have h := scalarLoop_mixed (wordOp op) dst src hlen dst.length 0 (by omega)
  rw [mixed_zero] at h
  exact h

theorem readSlice_applyPrefix (op : Op) (h : Heap) (a b : Slice) (hlen : a.len ≤ b.len) :
    readSlice (applyPrefix op h a b a.len) a
      = List.zipWith (wordOp op) (readSlice h a) (readSlice h b) := by
  apply List.ext_getElem
  · rw [List.length_zipWith, readSlice_length, readSlice_length, readSlice_length]; omega
  · intro i h1 h2
    rw [readSlice_length] at h1
    rw [readSlice_getElem, List.getElem_zipWith, readSlice_getElem, readSlice_getElem]
    exact word_applyPrefix op h a b i h1

/-- Every operator maps 64-bit words to 64-bit words. -/
theorem wordOp_lt (op : Op) (x y : Nat) (hx : x < W64) (hy : y < W64) : wordOp op x y < W64 := by
  have e : W64 = 2 ^ 64 := by unfold W64; norm_num
  rw [e] at hx hy ⊢
  cases op
  · exact lt_of_le_of_lt Nat.and_le_left hx
  · exact lt_of_le_of_lt Nat.and_le_left hx
  · exact Nat.or_lt_two_pow hx hy
  · exact Nat.xor_lt_two_pow hx hy

/-- With block size at least 1 the block loop stops because fewer than `B` words
remain, not because it ran out of iterations. -/
theorem blockLoop_exit (B : Nat) (hB : 1 ≤ B) (op : Op) (dst src : List Nat)
    (hlen : dst.length ≤ src.length) :
    (blockLoop (wordOp op) src B dst.length 0 dst.length dst).2.1 < B := by
  obtain ⟨off', rem', h1, -, h3⟩ :=
    blockLoop_mixed (wordOp op) dst src B hB hlen dst.length 0 dst.length (by omega) (le_refl _)
  rw [mixed_zero] at h1
  rw [h1]
  exact h3

/-- A buffer combined with itself by an idempotent operator is unchanged. -/
theorem applyPrefix_self (op : Op) (h : Heap) (a : Slice) (k : Nat)
    (hop : ∀ x, wordOp op x x = x) : applyPrefix op h a a k = h := by
  funext p
  unfold applyPrefix
  split
  · next hp =>
    rw [show a.base + (p - a.base) = p by omega]
    exact hop _
  · rfl

/-! ## Word identities -/

/-- A word has no bit in common with its complement. -/
theorem and_not64_self (x : Nat) : x &&& not64 x = 0 := by
  have e : W64 = 2 ^ 64 := by unfold W64; norm_num
  have hlt : x % 2 ^ 64 < 2 ^ 64 := Nat.mod_lt _ (by norm_num)
  have hn : not64 x = 2 ^ 64 - (x % 2 ^ 64 + 1) := by
    unfold not64; rw [e]; omega
  apply Nat.eq_of_testBit_eq
  intro i
  rw [hn, Nat.testBit_and, Nat.testBit_two_pow_sub_succ hlt, Nat.testBit_mod_two_pow,
    Nat.zero_testBit]
  cases x.testBit i <;> cases decide (i < 64) <;> rfl

/-- Applying `And`, `Or` or `AndNot` with the same source word twice is the same as once. -/
theorem wordOp_idem (op : Op) (hop : op = .and ∨ op = .or ∨ op = .andnot) (x y : Nat) :
    wordOp op (wordOp op x y) y = wordOp op x y := by
  rcases hop with rfl | rfl | rfl
  · show (x &&& y) &&& y = x &&& y
    rw [Nat.and_assoc, Nat.and_self]
  · show (x ||| y) ||| y = x ||| y
    rw [Nat.or_assoc, Nat.or_self]
  · show (x &&& not64 y) &&& not64 y = x &&& not64 y
    rw [Nat.and_assoc, Nat.and_self]

/-- Applying `And`, `Or` or `AndNot` to a word and itself gives a fixed point of
the same self-operation. -/
theorem wordOp_self_idem (op : Op) (hop : op = .and ∨ op = .or ∨ op = .andnot) (x : Nat) :
    wordOp op (wordOp op x x) (wordOp op x x) = wordOp op x x := by
  rcases hop with rfl | rfl | rfl
  · show (x &&& x) &&& (x &&& x) = x &&& x
    rw [Nat.and_self]
  · show (x ||| x) ||| (x ||| x) = x ||| x
    rw [Nat.or_self]
  · show (x &&& not64 x) &&& not64 (x &&& not64 x) = x &&& not64 x
    rw [and_not64_self x]
    exact and_not64_self 0

/-- Xor with the same source word twice gives the word back. -/
theorem wordOp_xor_xor (x y : Nat) : wordOp .xor (wordOp .xor x y) y = x := by
  show (x ^^^ y) ^^^ y = x
  rw [Nat.xor_assoc, Nat.xor_self, Nat.xor_zero]

theorem word_of_readSlice_eq (h h' : Heap) (sl : Slice) (heq : readSlice h' sl = readSlice h sl)
    (i : Nat) (hi : i < sl.len) : word h' sl i = word h sl i := by
  have h1 : (readSlice h' sl)[i]? = (readSlice h sl)[i]? := by rw [heq]
  rw [List.getElem?_eq_getElem (by rw [readSlice_length]; exact hi),
    List.getElem?_eq_getElem (by rw [readSlice_length]; exact hi), readSlice_getElem,
    readSlice_getElem] at h1
  exact Option.some.inj h1

/-- For disjoint buffers the source reads back unchanged from the result heap. -/
theorem readSlice_src_applyPrefix (op : Op) (h : Heap) (a b : Slice) (hd : Separate a b) :
    readSlice (applyPrefix op h a b a.len) b = readSlice h b := by
  apply readSlice_congr
  intro i hi
  unfold Separate at hd
  exact applyPrefix_outside op h a b a.len _ (by omega)

/-! ## Traces: invariants, iterations, termination -/

theorem upd_other (h : Heap) (addr v p : Nat) (hp : p ≠ addr) : upd h addr v p = h p := by
  unfold upd
  rw [if_neg hp]

theorem regInv_entry (h : Heap) (a b : Slice) (ha : a.Valid) (hb : b.Valid) :
    RegInv a b 0 (entry h a b) := by
  unfold Slice.Valid W64 at ha hb
  refine ⟨?_, ?_, ?_⟩
  · show a.base % W64 = a.base + 8 * 0
    unfold W64; omega
  · show b.base % W64 = b.base + 8 * 0
    unfold W64; omega
  · show a.len % W64 + 0 = a.len
    unfold W64; omega

/-- One tail iteration: it is defined, moves the registers by one word and
writes the combined word at `a.Base`. -/
theorem tailWord_effect (op : Op) (a b : Slice) (k : Nat) (st : State)
    (ha : a.Valid) (hb : b.Valid) (hlen : a.len ≤ b.len) (hinv : RegInv a b k st)
    (hn : st.n ≠ 0) :
    ∃ st', tailWord op a b st = some st' ∧ RegInv a b (k + 1) st' ∧ st'.pc = .tail ∧
      st'.aBase = st.aBase + 8 ∧ st'.bBase = st.bBase + 8 ∧ st'.n + 1 = st.n ∧
      st'.heap = upd st.heap st.aBase (wordOp op (st.heap st.aBase) (st.heap st.bBase)) := by
  obtain ⟨hA, hB, hcount⟩ := hinv
  unfold Slice.Valid W64 at ha hb
  have eA : ea st.aBase 0 = st.aBase := by
    unfold ea W64; rw [hA]; omega
  have eB : ea st.bBase 0 = st.bBase := by
    unfold ea W64; rw [hB]; omega
  unfold tailWord
  rw [eA, eB, load64_eq _ (by omega) (by omega) (by omega),
    load64_eq _ (by omega) (by omega) (by omega)]
  simp only [Option.some_bind]
  rw [store64_eq _ _ (by omega) (by omega) (by omega)]
  simp only [Option.some_bind]
  refine ⟨_, rfl, ⟨?_, ?_, ?_⟩, rfl, ?_, ?_, ?_, ?_⟩
  · show ADDQ 8 st.aBase = _
    unfold ADDQ W64; rw [hA]; omega
  · show ADDQ 8 st.bBase = _
    unfold ADDQ W64; rw [hB]; omega
  · show SUBQ 1 st.n + (k + 1) = a.len
    unfold SUBQ W64; omega
  · show ADDQ 8 st.aBase = _
    unfold ADDQ W64; rw [hA]; omega
  · show ADDQ 8 st.bBase = _
    unfold ADDQ W64; rw [hB]; omega
  · show SUBQ 1 st.n + 1 = st.n
    unfold SUBQ W64; omega
  · show upd st.heap _ _ = _
    rw [scalarOp_eq]

/-- One block iteration: it is defined, moves the registers by eight words,
writes the combined word at each of the eight word addresses from `a.Base` on
and leaves every other address alone. -/
theorem bodyBlock_effect (op : Op) (a b : Slice) (k : Nat) (st : State)
    (ha : a.Valid) (hb : b.Valid) (hlen : a.len ≤ b.len) (hinv : RegInv a b k st)
    (hn : 8 ≤ st.n) :
    ∃ st', bodyBlock op a b st = some st' ∧ RegInv a b (k + 8) st' ∧ st'.pc = .body ∧
      st'.aBase = st.aBase + blocksize ∧ st'.bBase = st.bBase + blocksize ∧
      st'.n + 4 * unroll = st.n ∧
      (∀ j, j < 8 → st'.heap (st.aBase + 8 * j)
        = wordOp op (st.heap (st.aBase + 8 * j)) (st.heap (st.bBase + 8 * j))) ∧
      (∀ p, (∀ j, j < 8 → p ≠ st.aBase + 8 * j) → st'.heap p = st.heap p) := by
  obtain ⟨hA, hB, hcount⟩ := hinv
  unfold Slice.Valid W64 at ha hb
  have eA0 : ea st.aBase (size * 0) = st.aBase := by
    unfold ea W64 size; rw [hA]; omega
  have eA1 : ea st.aBase (size * 1) = st.aBase + 32 := by
    unfold ea W64 size; rw [hA]; omega
  have eB0 : ea st.bBase (size * 0) = st.bBase := by
    unfold ea W64 size; rw [hB]; omega
  have eB1 : ea st.bBase (size * 1) = st.bBase + 32 := by
    unfold ea W64 size; rw [hB]; omega
  unfold bodyBlock
  rw [eA0, eA1, eB0, eB1, load256_eq _ (by omega) (by omega) (by omega),
    load256_eq _ (by omega) (by omega) (by omega)]
  simp only [Option.some_bind]
  rw [load256_eq _ (by omega) (by omega) (by omega),
    load256_eq _ (by omega) (by omega) (by omega)]
  simp only [Option.some_bind]
  rw [store256_eq _ _ (by omega) (by omega) (by omega)]
  simp only [Option.some_bind]
  rw [store256_eq _ _ (by omega) (by omega) (by omega)]
  simp only [Option.some_bind]
  refine ⟨_, rfl, ⟨?_, ?_, ?_⟩, rfl, ?_, ?_, ?_, ?_, ?_⟩
  · show ADDQ blocksize st.aBase = _
    unfold ADDQ W64 blocksize size unroll; rw [hA]; omega
  · show ADDQ blocksize st.bBase = _
    unfold ADDQ W64 blocksize size unroll; rw [hB]; omega
  · show SUBQ (4 * unroll) st.n + (k + 8) = a.len
    unfold SUBQ W64 unroll; omega
  · show ADDQ blocksize st.aBase = _
    unfold ADDQ W64 blocksize size unroll; rw [hA]; omega
  · show ADDQ blocksize st.bBase = _
    unfold ADDQ W64 blocksize size unroll; rw [hB]; omega
  · show SUBQ (4 * unroll) st.n + 4 * unroll = st.n
    unfold SUBQ W64 unroll; omega
  · intro j hj
    simp only [vectorOp_eq]
    interval_cases j
    all_goals simp [upd, Nat.add_assoc]
  · intro p hp
    have h0 := hp 0 (by omega)
    have h1 := hp 1 (by omega)
    have h2 := hp 2 (by omega)
    have h3 := hp 3 (by omega)
    have h4 := hp 4 (by omega)
    have h5 := hp 5 (by omega)
    have h6 := hp 6 (by omega)
    have h7 := hp 7 (by omega)
    show upd _ _ _ p = st.heap p
    rw [upd_other _ _ _ _ (by omega), upd_other _ _ _ _ (by omega),
      upd_other _ _ _ _ (by omega), upd_other _ _ _ _ (by omega),
      upd_other _ _ _ _ (by omega), upd_other _ _ _ _ (by omega),
      upd_other _ _ _ _ (by omega), upd_other _ _ _ _ (by omega)]

theorem iteration_body_exit (st : State) (hpc : st.pc = .body) (hn : st.n < 8) :
    iteration st = none := by
  have h8 : toInt64 st.n < 8 := by
    rw [toInt64_small (by omega)]; omega
  simp [iteration, hpc, h8]

theorem iteration_body_block (st : State) (hpc : st.pc = .body) (hn : 8 ≤ st.n)
    (hlt : st.n < 9223372036854775808) :
    iteration st = some (.block st.aBase st.bBase) := by
  have h8 : ¬ toInt64 st.n < 8 := by
    rw [toInt64_small hlt]; omega
  simp [iteration, hpc, h8]

theorem iteration_tail_exit (st : State) (hpc : st.pc = .tail) (hn : st.n = 0) :
    iteration st = none := by
  simp [iteration, hpc, hn]

theorem iteration_tail_word (st : State) (hpc : st.pc = .tail) (hn : st.n ≠ 0) :
    iteration st = some (.word st.aBase st.bBase) := by
  simp [iteration, hpc, hn]

theorem iteration_done (st : State) (hpc : st.pc = .done) : iteration st = none := by
  simp [iteration, hpc]

theorem reach_entry (h : Heap) (a b : Slice) (ha : a.Valid) (hb : b.Valid) :
    Reach a b (entry h a b) :=
  ⟨⟨0, regInv_entry h a b ha hb⟩, (fun hpc => by cases hpc), (fun hpc => by cases hpc)⟩

/-- Every basic block started from a reachable state is defined, ends in a
reachable state, moves the registers as `Advance` says, and ends at `done`
exactly when it started at `tail` with count zero. -/
theorem step_reach (op : Op) (a b : Slice) (st : State) (ha : a.Valid) (hb : b.Valid)
    (hlen : a.len ≤ b.len) (hr : Reach a b st) (hpc : st.pc ≠ .done) :
    ∃ st', step op a b st = some st' ∧ Reach a b st' ∧ Advance st st' ∧
      (st'.pc = .done ↔ st.pc = .tail ∧ st.n = 0) := by
  obtain ⟨⟨k, hinv⟩, htail, -⟩ := hr
  have hv := ha
  unfold Slice.Valid W64 at hv
  have hcount := hinv.count
  rcases hl : st.pc with _ | _ | _
  · by_cases hn : st.n < 8
    · refine ⟨{ st with pc := .tail }, step_body_exit op a b st hl hn,
        ⟨⟨k, hinv.aBase, hinv.bBase, hinv.count⟩, (fun _ => hn), (fun hpc' => by cases hpc')⟩, ?_, ?_⟩
      · unfold Advance
        rw [iteration_body_exit st hl hn]
        exact ⟨rfl, rfl, rfl⟩
      · simp
    · obtain ⟨st', hs, hinv', hpc', hA, hB, hN, -, -⟩ :=
        bodyBlock_effect op a b k st ha hb hlen hinv (by omega)
      refine ⟨st', ?_, ⟨⟨k + 8, hinv'⟩, (fun h1 => by rw [hpc'] at h1; cases h1),
        (fun h1 => by rw [hpc'] at h1; cases h1)⟩, ?_, ?_⟩
      · rw [step_body_block op a b st hl (by omega) (by omega)]; exact hs
      · unfold Advance
        rw [iteration_body_block st hl (by omega) (by omega)]
        exact ⟨hA, hB, hN⟩
      · simp [hpc']
  · by_cases hn : st.n = 0
    · refine ⟨{ st with pc := .done }, step_tail_exit op a b st hl hn,
        ⟨⟨k, hinv.aBase, hinv.bBase, hinv.count⟩, (fun hpc' => by cases hpc'), (fun _ => hn)⟩, ?_, ?_⟩
      · unfold Advance
        rw [iteration_tail_exit st hl hn]
        exact ⟨rfl, rfl, rfl⟩
      · simp [hn]
    · obtain ⟨st', hs, hinv', hpc', hA, hB, hN, -⟩ :=
        tailWord_effect op a b k st ha hb hlen hinv hn
      have h8 := htail hl
      refine ⟨st', ?_, ⟨⟨k + 1, hinv'⟩, (fun _ => by omega),
        (fun h1 => by rw [hpc'] at h1; cases h1)⟩, ?_, ?_⟩
      · rw [step_tail_word op a b st hl hn]; exact hs
      · unfold Advance
        rw [iteration_tail_word st hl hn]
        exact ⟨hA, hB, hN⟩
      · simp [hpc', hn]
  · exact absurd hl hpc

theorem trace_done (op : Op) (a b : Slice) (fuel : Nat) (st : State) (hpc : st.pc = .done) :
    trace op a b fuel st = [st] := by
  cases fuel <;> simp [trace, hpc]

theorem trace_step (op : Op) (a b : Slice) (fuel : Nat) (st st' : State)
    (hpc : st.pc ≠ .done) (hs : step op a b st = some st') :
    trace op a b (fuel + 1) st = st :: trace op a b fuel st' := by
  simp [trace, hpc, hs]

theorem trace_head (op : Op) (a b : Slice) (fuel : Nat) (st : State) :
    (trace op a b fuel st).head? = some st := by
  cases fuel with
  | zero => rfl
  | succ f =>
    unfold trace
    split
    · rfl
    · split <;> rfl

/-- An invariant kept by every basic block holds at every label of the trace,
and a relation every basic block establishes links each label to the next. -/
theorem trace_invariant (op : Op) (a b : Slice) (P : State → Prop) (R : State → State → Prop)
    (hstep : ∀ s, P s → s.pc ≠ .done → ∃ t, step op a b s = some t ∧ P t ∧ R s t) :
    ∀ (fuel : Nat) (st : State), P st →
      (∀ s, s ∈ trace op a b fuel st → P s) ∧ List.Chain' R (trace op a b fuel st) := by
  intro fuel
  induction fuel with
  | zero =>
    intro st hP
    refine ⟨?_, List.chain'_singleton st⟩
    intro s hs
    rw [show trace op a b 0 st = [st] from rfl, List.mem_singleton] at hs
    rw [hs]; exact hP
  | succ fuel ih =>
    intro st hP
    by_cases hpc : st.pc = .done
    · rw [trace_done op a b _ st hpc]
      refine ⟨?_, List.chain'_singleton st⟩
      intro s hs
      rw [List.mem_singleton] at hs
      rw [hs]; exact hP
    · obtain ⟨t, hs, hPt, hR⟩ := hstep st hP hpc
      obtain ⟨hall, hchain⟩ := ih t hPt
      rw [trace_step op a b fuel st t hpc hs]
      refine ⟨?_, ?_⟩
      · intro s hs'
        rcases List.mem_cons.mp hs' with rfl | hs'
        · exact hP
        · exact hall s hs'
      · apply List.Chain'.cons' hchain
        intro y hy
        rw [trace_head] at hy
        cases hy
        exact hR

theorem trace_cons_getLast (op : Op) (a b : Slice) (fuel : Nat) (s st st' : State)
    (h : (trace op a b fuel st).getLast? = some st') :
    (s :: trace op a b fuel st).getLast? = some st' := by
  rw [List.getLast?_cons, h]
  rfl

/-- From the head of the tail loop: one tail iteration per remaining word, then
`RET` with count zero. -/
theorem loop_tail (op : Op) (a b : Slice) (ha : a.Valid) (hb : b.Valid)
    (hlen : a.len ≤ b.len) :
    ∀ (m k : Nat) (st : State) (fuel : Nat), RegInv a b k st → st.pc = .tail → st.n = m →
      m + 1 ≤ fuel →
      (trace op a b fuel st).filterMap iteration
        = (List.range' k m).map (fun i => Event.word (a.base + 8 * i) (b.base + 8 * i)) ∧
      ∃ st', (trace op a b fuel st).getLast? = some st' ∧ run op a b fuel st = some st' ∧
        st'.pc = .done ∧ st'.n = 0 := by
  intro m
  induction m with
  | zero =>
    intro k st fuel hinv hpc hn hfuel
    obtain ⟨f, rfl⟩ : ∃ f, fuel = f + 1 := ⟨fuel - 1, by omega⟩
    have hs := step_tail_exit op a b st hpc hn
    rw [trace_step op a b f st _ (by simp [hpc]) hs, trace_done op a b f _ rfl,
      run_step op a b f st _ (by simp [hpc]) hs, run_done op a b f _ rfl]
    refine ⟨?_, _, rfl, rfl, rfl, hn⟩
    simp [List.filterMap_cons, iteration_tail_exit st hpc hn, iteration_done]
  | succ m ih =>
    intro k st fuel hinv hpc hn hfuel
    obtain ⟨f, rfl⟩ : ∃ f, fuel = f + 1 := ⟨fuel - 1, by omega⟩
    obtain ⟨st1, hs, hinv1, hpc1, -, -, hN, -⟩ :=
      tailWord_effect op a b k st ha hb hlen hinv (by omega)
    have hstep : step op a b st = some st1 := by
      rw [step_tail_word op a b st hpc (by omega)]; exact hs
    obtain ⟨hev, st', hlast, hrun, hdone, hzero⟩ :=
      ih (k + 1) st1 f hinv1 hpc1 (by omega) (by omega)
    rw [trace_step op a b f st st1 (by simp [hpc]) hstep, run_step op a b f st st1 (by simp [hpc]) hstep]
    refine ⟨?_, st', trace_cons_getLast op a b f st st1 st' hlast, hrun, hdone, hzero⟩
    rw [List.filterMap_cons, iteration_tail_word st hpc (by omega), hev, List.range'_succ,
      List.map_cons, hinv.aBase, hinv.bBase]

/-- From the head of the block loop: one block iteration per whole block of
eight remaining words, then the tail loop. -/
theorem loop_body (op : Op) (a b : Slice) (ha : a.Valid) (hb : b.Valid)
    (hlen : a.len ≤ b.len) :
    ∀ (q k : Nat) (st : State) (fuel : Nat), RegInv a b k st → st.pc = .body → st.n / 8 = q →
      st.n / 8 + st.n % 8 + 2 ≤ fuel →
      (trace op a b fuel st).filterMap iteration
        = (List.range' k q 8).map (fun i => Event.block (a.base + 8 * i) (b.base + 8 * i))
          ++ (List.range' (k + 8 * q) (st.n % 8)).map
            (fun i => Event.word (a.base + 8 * i) (b.base + 8 * i)) ∧
      ∃ st', (trace op a b fuel st).getLast? = some st' ∧ run op a b fuel st = some st' ∧
        st'.pc = .done ∧ st'.n = 0 := by
  intro q
  induction q with
  | zero =>
    intro k st fuel hinv hpc hq hfuel
    obtain ⟨f, rfl⟩ : ∃ f, fuel = f + 1 := ⟨fuel - 1, by omega⟩
    have hn : st.n < 8 := by omega
    have hs := step_body_exit op a b st hpc hn
    obtain ⟨hev, st', hlast, hrun, hdone, hzero⟩ :=
      loop_tail op a b ha hb hlen st.n k { st with pc := .tail } f
        ⟨hinv.aBase, hinv.bBase, hinv.count⟩ rfl rfl (by omega)
    rw [trace_step op a b f st _ (by simp [hpc]) hs, run_step op a b f st _ (by simp [hpc]) hs]
    refine ⟨?_, st', trace_cons_getLast op a b f st _ st' hlast, hrun, hdone, hzero⟩
    rw [List.filterMap_cons, iteration_body_exit st hpc hn, hev, List.range'_zero, List.map_nil,
      List.nil_append, Nat.mod_eq_of_lt hn]
    rfl
  | succ q ih =>
    intro k st fuel hinv hpc hq hfuel
    obtain ⟨f, rfl⟩ : ∃ f, fuel = f + 1 := ⟨fuel - 1, by omega⟩
    have hv := ha
    unfold Slice.Valid W64 at hv
    have hcount := hinv.count
    obtain ⟨st1, hs, hinv1, hpc1, -, -, hN, -, -⟩ :=
      bodyBlock_effect op a b k st ha hb hlen hinv (by omega)
    have hN8 : st1.n + 8 = st.n := hN
    have hstep : step op a b st = some st1 := by
      rw [step_body_block op a b st hpc (by omega) (by omega)]; exact hs
    obtain ⟨hev, st', hlast, hrun, hdone, hzero⟩ :=
      ih (k + 8) st1 f hinv1 hpc1 (by omega) (by omega)
    rw [trace_step op a b f st st1 (by simp [hpc]) hstep, run_step op a b f st st1 (by simp [hpc]) hstep]
    refine ⟨?_, st', trace_cons_getLast op a b f st st1 st' hlast, hrun, hdone, hzero⟩
    rw [List.filterMap_cons, iteration_body_block st hpc (by omega) (by omega), hev,
      List.range'_succ, List.map_cons, hinv.aBase, hinv.bBase,
      show st1.n % 8 = st.n % 8 by omega, show k + 8 + 8 * q = k + 8 * (q + 1) by omega]
    rfl

theorem iteration_block_inv (st : State) (x y : Nat) (h : iteration st = some (.block x y)) :
    st.pc = .body ∧ ¬ toInt64 st.n < 8 ∧ x = st.aBase ∧ y = st.bBase := by
  unfold iteration at h
  split at h
  · split at h
    · cases h
    · next hpc hn =>
      cases h
      exact ⟨hpc, hn, rfl, rfl⟩
  · split at h <;> cases h
  · cases h

theorem iteration_word_inv (st : State) (x y : Nat) (h : iteration st = some (.word x y)) :
    st.pc = .tail ∧ st.n ≠ 0 ∧ x = st.aBase ∧ y = st.bBase := by
  unfold iteration at h
  split at h
  · split at h <;> cases h
  · split at h
    · cases h
    · next hpc hn =>
      cases h
      exact ⟨hpc, hn, rfl, rfl⟩
  · cases h

/-- The whole call: the iterations it performs and the state it returns in. -/
theorem states_loop (op : Op) (h : Heap) (a b : Slice) (ha : a.Valid) (hb : b.Valid)
    (hlen : a.len ≤ b.len) :
    events op h a b
      = (List.range' 0 (a.len / 8) 8).map (fun i => Event.block (a.base + 8 * i) (b.base + 8 * i))
        ++ (List.range' (8 * (a.len / 8)) (a.len % 8)).map
          (fun i => Event.word (a.base + 8 * i) (b.base + 8 * i)) ∧
    ∃ st', (states op h a b).getLast? = some st' ∧
      run op a b (a.len % W64 + 2) (entry h a b) = some st' ∧ st'.pc = .done ∧ st'.n = 0 := by
  have hv := ha
  unfold Slice.Valid W64 at hv
  have hn : (entry h a b).n = a.len := by
    show a.len % W64 = a.len
    unfold W64; omega
  have hl := loop_body op a b ha hb hlen ((entry h a b).n / 8) 0 (entry h a b) (a.len % W64 + 2)
    (regInv_entry h a b ha hb) rfl rfl (by rw [hn]; unfold W64; omega)
  rw [hn, Nat.zero_add] at hl
  exact hl

/-- Every label of a call is reached in a state satisfying `Reach`, and
consecutive labels are linked by `Advance`. -/
theorem states_reach (op : Op) (h : Heap) (a b : Slice) (ha : a.Valid) (hb : b.Valid)
    (hlen : a.len ≤ b.len) :
    (∀ s, s ∈ states op h a b → Reach a b s) ∧
    List.Chain' (fun s t => step op a b s = some t ∧ Advance s t ∧
      (t.pc = .done ↔ s.pc = .tail ∧ s.n = 0)) (states op h a b) :=
  trace_invariant op a b (Reach a b) _
    (fun s hs hpc => by
      obtain ⟨t, h1, h2, h3, h4⟩ := step_reach op a b s ha hb hlen hs hpc
      exact ⟨t, h1, h2, h1, h3, h4⟩)
    (a.len % W64 + 2) (entry h a b) (reach_entry h a b ha hb)

/-! ## Claims -/

/-- Claim C1: `AndNot` keeps the operand order `dest AND (NOT source)`.  For
equal-length buffers the call returns, the destination keeps its length, and
every destination word `i` becomes `old a[i] AND (NOT b[i])`; the scalar
instruction `ANDNQ` and every lane of the vector instruction `VPANDN`, as the
routine applies them (memory operand `a`, register operand `b`), compute that
same order. -/
theorem AndNot_operand_order (h : Heap) (a b : Slice) (ha : a.Valid) (hb : b.Valid)
    (hlen : a.len = b.len) (hc : a.base = b.base ∨ Separate a b) :
    (∃ h', AndNot h a b = some h' ∧ (readSlice h' a).length = (readSlice h a).length ∧
      ∀ i, i < a.len → word h' a i = word h a i &&& not64 (word h b i)) ∧
    (∀ m s, scalarOp .andnot m s = m &&& not64 s) ∧
    (∀ m y, vectorOp .andnot m y
      = ⟨m.q0 &&& not64 y.q0, m.q1 &&& not64 y.q1, m.q2 &&& not64 y.q2, m.q3 &&& not64 y.q3⟩) := by
  refine ⟨⟨_, generate_eq .andnot h a b ha hb (by omega) hc, ?_, ?_⟩, ?_, ?_⟩
  · rw [readSlice_length, readSlice_length]
  · intro i hi
    exact word_applyPrefix .andnot h a b i hi
  · intro m s
    exact scalarOp_eq .andnot m s
  · intro m y
    exact vectorOp_eq .andnot m y

/-- Witness for C1: two disjoint 9-word buffers (one block, one tail word). -/
theorem AndNot_operand_order_witness :
    (⟨0, 9⟩ : Slice).Valid ∧ (⟨80, 9⟩ : Slice).Valid ∧ Separate ⟨0, 9⟩ ⟨80, 9⟩ ∧
    ((∃ h', AndNot (heapOf (List.range 20)) ⟨0, 9⟩ ⟨80, 9⟩ = some h' ∧
      (readSlice h' ⟨0, 9⟩).length = (readSlice (heapOf (List.range 20)) ⟨0, 9⟩).length ∧
      ∀ i, i < 9 → word h' ⟨0, 9⟩ i = word (heapOf (List.range 20)) ⟨0, 9⟩ i
        &&& not64 (word (heapOf (List.range 20)) ⟨80, 9⟩ i)) ∧
    (∀ m s, scalarOp .andnot m s = m &&& not64 s) ∧
    (∀ m y, vectorOp .andnot m y
      = ⟨m.q0 &&& not64 y.q0, m.q1 &&& not64 y.q1, m.q2 &&& not64 y.q2, m.q3 &&& not64 y.q3⟩)) :=
  ⟨by decide, by decide, by decide,
    AndNot_operand_order (heapOf (List.range 20)) ⟨0, 9⟩ ⟨80, 9⟩ (by decide) (by decide) rfl
      (Or.inr (by decide))⟩

/-- Claim C2: `And` computes the intersection in place.  For equal-length
buffers of any length the call returns, the destination keeps its length, and
every destination word `i` becomes `old a[i] AND b[i]`. -/
theorem And_intersection (h : Heap) (a b : Slice) (ha : a.Valid) (hb : b.Valid)
    (hlen : a.len = b.len) (hc : a.base = b.base ∨ Separate a b) :
    ∃ h', And h a b = some h' ∧ (readSlice h' a).length = a.len ∧
      ∀ i, i < a.len → word h' a i = word h a i &&& word h b i := by
  refine ⟨_, generate_eq .and h a b ha hb (by omega) hc, ?_, ?_⟩
  · rw [readSlice_length]
  · intro i hi
    exact word_applyPrefix .and h a b i hi

/-- Witness for C2: two disjoint 17-word buffers (two blocks, one tail word). -/
theorem And_intersection_witness :
    (⟨0, 17⟩ : Slice).Valid ∧ (⟨136, 17⟩ : Slice).Valid ∧ Separate ⟨0, 17⟩ ⟨136, 17⟩ ∧
    ∃ h', And (heapOf (List.range 34)) ⟨0, 17⟩ ⟨136, 17⟩ = some h' ∧
      (readSlice h' ⟨0, 17⟩).length = 17 ∧
      ∀ i, i < 17 → word h' ⟨0, 17⟩ i
        = word (heapOf (List.range 34)) ⟨0, 17⟩ i &&& word (heapOf (List.range 34)) ⟨136, 17⟩ i :=
  ⟨by decide, by decide, by decide,
    And_intersection (heapOf (List.range 34)) ⟨0, 17⟩ ⟨136, 17⟩ (by decide) (by decide) rfl
      (Or.inr (by decide))⟩

/-- Claim C3: `Or` computes the union in place.  For equal-length buffers of any
length the call returns, the destination keeps its length, and every
destination word `i` becomes `old a[i] OR b[i]`. -/
theorem Or_union (h : Heap) (a b : Slice) (ha : a.Valid) (hb : b.Valid)
    (hlen : a.len = b.len) (hc : a.base = b.base ∨ Separate a b) :
    ∃ h', Or h a b = some h' ∧ (readSlice h' a).length = a.len ∧
      ∀ i, i < a.len → word h' a i = word h a i ||| word h b i := by
  refine ⟨_, generate_eq .or h a b ha hb (by omega) hc, ?_, ?_⟩
  · rw [readSlice_length]
  · intro i hi
    exact word_applyPrefix .or h a b i hi

/-- Witness for C3: two disjoint 8-word buffers (exactly one block, empty tail). -/
theorem Or_union_witness :
    (⟨64, 8⟩ : Slice).Valid ∧ (⟨0, 8⟩ : Slice).Valid ∧ Separate ⟨64, 8⟩ ⟨0, 8⟩ ∧
    ∃ h', Or (heapOf (List.range 16)) ⟨64, 8⟩ ⟨0, 8⟩ = some h' ∧
      (readSlice h' ⟨64, 8⟩).length = 8 ∧
      ∀ i, i < 8 → word h' ⟨64, 8⟩ i
        = word (heapOf (List.range 16)) ⟨64, 8⟩ i ||| word (heapOf (List.range 16)) ⟨0, 8⟩ i :=
  ⟨by decide, by decide, by decide,
    Or_union (heapOf (List.range 16)) ⟨64, 8⟩ ⟨0, 8⟩ (by decide) (by decide) rfl
      (Or.inr (by decide))⟩

/-- Claim C4: `Xor` computes the symmetric difference in place.  For equal-length
buffers of any length the call returns, the destination keeps its length, and
every destination word `i` becomes `old a[i] XOR b[i]`; destination
`[0xFF, 0x0F]` with source `[0x0F, 0xFF]` yields `[0xF0, 0xF0]`. -/
theorem Xor_symmetric_difference (h : Heap) (a b : Slice) (ha : a.Valid) (hb : b.Valid)
    (hlen : a.len = b.len) (hc : a.base = b.base ∨ Separate a b) :
    (∃ h', Xor h a b = some h' ∧ (readSlice h' a).length = a.len ∧
      ∀ i, i < a.len → word h' a i = word h a i ^^^ word h b i) ∧
    (readSlice (heapOf [0xFF, 0x0F, 0x0F, 0xFF]) ⟨0, 2⟩ = [0xFF, 0x0F] ∧
     readSlice (heapOf [0xFF, 0x0F, 0x0F, 0xFF]) ⟨16, 2⟩ = [0x0F, 0xFF] ∧
     (Xor (heapOf [0xFF, 0x0F, 0x0F, 0xFF]) ⟨0, 2⟩ ⟨16, 2⟩).map (fun h' => readSlice h' ⟨0, 2⟩)
       = some [0xF0, 0xF0]) := by
  refine ⟨⟨_, generate_eq .xor h a b ha hb (by omega) hc, ?_, ?_⟩, ?_⟩
  · rw [readSlice_length]
  · intro i hi
    exact word_applyPrefix .xor h a b i hi
  · decide

/-- Witness for C4: the buffers of the concrete scenario. -/
theorem Xor_symmetric_difference_witness :
    (⟨0, 2⟩ : Slice).Valid ∧ (⟨16, 2⟩ : Slice).Valid ∧ Separate ⟨0, 2⟩ ⟨16, 2⟩ ∧
    ((∃ h', Xor (heapOf [0xFF, 0x0F, 0x0F, 0xFF]) ⟨0, 2⟩ ⟨16, 2⟩ = some h' ∧
      (readSlice h' ⟨0, 2⟩).length = 2 ∧
      ∀ i, i < 2 → word h' ⟨0, 2⟩ i = word (heapOf [0xFF, 0x0F, 0x0F, 0xFF]) ⟨0, 2⟩ i
        ^^^ word (heapOf [0xFF, 0x0F, 0x0F, 0xFF]) ⟨16, 2⟩ i) ∧
    (readSlice (heapOf [0xFF, 0x0F, 0x0F, 0xFF]) ⟨0, 2⟩ = [0xFF, 0x0F] ∧
     readSlice (heapOf [0xFF, 0x0F, 0x0F, 0xFF]) ⟨16, 2⟩ = [0x0F, 0xFF] ∧
     (Xor (heapOf [0xFF, 0x0F, 0x0F, 0xFF]) ⟨0, 2⟩ ⟨16, 2⟩).map (fun h' => readSlice h' ⟨0, 2⟩)
       = some [0xF0, 0xF0])) :=
  ⟨by decide, by decide, by decide,
    Xor_symmetric_difference (heapOf [0xFF, 0x0F, 0x0F, 0xFF]) ⟨0, 2⟩ ⟨16, 2⟩ (by decide)
      (by decide) rfl (Or.inr (by decide))⟩

/-- Counterexample for C5: with a 3-word destination `[6, 6, 6]` and a 4-word
source `[3, 3, 3, 3]` every routine returns normally and the destination has
been overwritten. -/
theorem length_mismatch_not_rejected :
    (⟨0, 3⟩ : Slice).len = 3 ∧ (⟨24, 4⟩ : Slice).len = 4 ∧
    readSlice (heapOf [6, 6, 6, 3, 3, 3, 3]) ⟨0, 3⟩ = [6, 6, 6] ∧
    (And (heapOf [6, 6, 6, 3, 3, 3, 3]) ⟨0, 3⟩ ⟨24, 4⟩).map (fun h' => readSlice h' ⟨0, 3⟩)
      = some [2, 2, 2] ∧
    (Or (heapOf [6, 6, 6, 3, 3, 3, 3]) ⟨0, 3⟩ ⟨24, 4⟩).map (fun h' => readSlice h' ⟨0, 3⟩)
      = some [7, 7, 7] ∧
    (AndNot (heapOf [6, 6, 6, 3, 3, 3, 3]) ⟨0, 3⟩ ⟨24, 4⟩).map (fun h' => readSlice h' ⟨0, 3⟩)
      = some [4, 4, 4] ∧
    (Xor (heapOf [6, 6, 6, 3, 3, 3, 3]) ⟨0, 3⟩ ⟨24, 4⟩).map (fun h' => readSlice h' ⟨0, 3⟩)
      = some [5, 5, 5] := by
  decide

/-- Claim C5, amended: the routines perform no length check.  When the source is
longer than the destination (for example 3 and 4 words) the call returns
normally and every destination word `i` becomes the operator applied to
`old a[i]` and `b[i]`. -/
theorem length_mismatch_unchecked (op : Op) (h : Heap) (a b : Slice) (ha : a.Valid)
    (hb : b.Valid) (hlen : a.len < b.len) (hc : a.base = b.base ∨ Separate a b) :
    ∃ h', generate op h a b = some h' ∧
      ∀ i, i < a.len → word h' a i = wordOp op (word h a i) (word h b i) := by
  refine ⟨_, generate_eq op h a b ha hb (by omega) hc, ?_⟩
  intro i hi
  exact word_applyPrefix op h a b i hi

/-- Witness for C5: the 3-word destination and 4-word source of the claim. -/
theorem length_mismatch_unchecked_witness :
    (⟨0, 3⟩ : Slice).Valid ∧ (⟨24, 4⟩ : Slice).Valid ∧ (⟨0, 3⟩ : Slice).len < (⟨24, 4⟩ : Slice).len ∧
    Separate ⟨0, 3⟩ ⟨24, 4⟩ ∧
    ∃ h', generate .xor (heapOf [6, 6, 6, 3, 3, 3, 3]) ⟨0, 3⟩ ⟨24, 4⟩ = some h' ∧
      ∀ i, i < 3 → word h' ⟨0, 3⟩ i = wordOp .xor (word (heapOf [6, 6, 6, 3, 3, 3, 3]) ⟨0, 3⟩ i)
        (word (heapOf [6, 6, 6, 3, 3, 3, 3]) ⟨24, 4⟩ i) :=
  ⟨by decide, by decide, by decide, by decide,
    length_mismatch_unchecked .xor (heapOf [6, 6, 6, 3, 3, 3, 3]) ⟨0, 3⟩ ⟨24, 4⟩ (by decide)
      (by decide) (by decide) (Or.inr (by decide))⟩

/-- Claim C6: the source is never written.  For each operator and equal-length
distinct buffers the call returns, the source buffer reads back word for word
as before (same length included), and every address outside the destination
holds the word it held before. -/
theorem source_unchanged (op : Op) (h : Heap) (a b : Slice) (ha : a.Valid) (hb : b.Valid)
    (hlen : a.len = b.len) (hd : Separate a b) :
    ∃ h', generate op h a b = some h' ∧ readSlice h' b = readSlice h b ∧
      (readSlice h' b).length = (readSlice h b).length ∧
      ∀ p, p < a.base ∨ a.base + 8 * a.len ≤ p → h' p = h p := by
  refine ⟨_, generate_eq op h a b ha hb (by omega) (Or.inr hd), ?_, ?_, ?_⟩
  · apply readSlice_congr
    intro i hi
    unfold Separate at hd
    exact applyPrefix_outside op h a b a.len _ (by omega)
  · rw [readSlice_length, readSlice_length]
  · intro p hp
    exact applyPrefix_outside op h a b a.len p hp

/-- Witness for C6: two disjoint 9-word buffers under `AndNot`. -/
theorem source_unchanged_witness :
    (⟨0, 9⟩ : Slice).Valid ∧ (⟨80, 9⟩ : Slice).Valid ∧ Separate ⟨0, 9⟩ ⟨80, 9⟩ ∧
    ∃ h', generate .andnot (heapOf (List.range 20)) ⟨0, 9⟩ ⟨80, 9⟩ = some h' ∧
      readSlice h' ⟨80, 9⟩ = readSlice (heapOf (List.range 20)) ⟨80, 9⟩ ∧
      (readSlice h' ⟨80, 9⟩).length = (readSlice (heapOf (List.range 20)) ⟨80, 9⟩).length ∧
      ∀ p, p < 0 ∨ 0 + 8 * 9 ≤ p → h' p = heapOf (List.range 20) p :=
  ⟨by decide, by decide, by decide,
    source_unchanged .andnot (heapOf (List.range 20)) ⟨0, 9⟩ ⟨80, 9⟩ (by decide) (by decide) rfl
      (by decide)⟩

/-- Claim C7: the routine refines the scalar reference, and the block size is not
observable.  For each operator and equal-length buffers of any length the call
returns and the destination it leaves equals (1) the result of the pure
word-at-a-time reference loop and (2) the result of the two-phase algorithm of
the specification run with any block size `B >= 1`, which therefore agrees with
the run at `B = 8`. -/
theorem two_phase_refines_scalar (op : Op) (h : Heap) (a b : Slice) (ha : a.Valid)
    (hb : b.Valid) (hlen : a.len = b.len) (hc : a.base = b.base ∨ Separate a b) :
    ∃ h', generate op h a b = some h' ∧
      readSlice h' a = scalarRef op (readSlice h a) (readSlice h b) ∧
      ∀ B, 1 ≤ B →
        twoPhase B op (readSlice h a) (readSlice h b) = readSlice h' a ∧
        twoPhase B op (readSlice h a) (readSlice h b)
          = twoPhase 8 op (readSlice h a) (readSlice h b) ∧
        (blockLoop (wordOp op) (readSlice h b) B (readSlice h a).length 0
          (readSlice h a).length (readSlice h a)).2.1 < B := by
  have hl : (readSlice h a).length ≤ (readSlice h b).length := by
    rw [readSlice_length, readSlice_length]; omega
  refine ⟨_, generate_eq op h a b ha hb (by omega) hc, ?_, ?_⟩
  · rw [readSlice_applyPrefix op h a b (by omega), scalarRef_eq op _ _ hl]
  · intro B hB
    rw [readSlice_applyPrefix op h a b (by omega), twoPhase_eq B hB op _ _ hl,
      twoPhase_eq 8 (by omega) op _ _ hl]
    exact ⟨rfl, rfl, blockLoop_exit B hB op _ _ hl⟩

/-- Witness for C7: two disjoint 9-word buffers under `Xor`. -/
theorem two_phase_refines_scalar_witness :
    (⟨0, 9⟩ : Slice).Valid ∧ (⟨80, 9⟩ : Slice).Valid ∧ Separate ⟨0, 9⟩ ⟨80, 9⟩ ∧
    ∃ h', generate .xor (heapOf (List.range 20)) ⟨0, 9⟩ ⟨80, 9⟩ = some h' ∧
      readSlice h' ⟨0, 9⟩ = scalarRef .xor (readSlice (heapOf (List.range 20)) ⟨0, 9⟩)
        (readSlice (heapOf (List.range 20)) ⟨80, 9⟩) ∧
      ∀ B, 1 ≤ B →
        twoPhase B .xor (readSlice (heapOf (List.range 20)) ⟨0, 9⟩)
          (readSlice (heapOf (List.range 20)) ⟨80, 9⟩) = readSlice h' ⟨0, 9⟩ ∧
        twoPhase B .xor (readSlice (heapOf (List.range 20)) ⟨0, 9⟩)
          (readSlice (heapOf (List.range 20)) ⟨80, 9⟩)
          = twoPhase 8 .xor (readSlice (heapOf (List.range 20)) ⟨0, 9⟩)
            (readSlice (heapOf (List.range 20)) ⟨80, 9⟩) ∧
        (blockLoop (wordOp .xor) (readSlice (heapOf (List.range 20)) ⟨80, 9⟩) B
          (readSlice (heapOf (List.range 20)) ⟨0, 9⟩).length 0
          (readSlice (heapOf (List.range 20)) ⟨0, 9⟩).length
          (readSlice (heapOf (List.range 20)) ⟨0, 9⟩)).2.1 < B :=
  ⟨by decide, by decide, by decide,
    two_phase_refines_scalar .xor (heapOf (List.range 20)) ⟨0, 9⟩ ⟨80, 9⟩ (by decide)
      (by decide) rfl (Or.inr (by decide))⟩

/-- Claim C8: `AndNot` is not commutative.  With `a = [0b110]` and `b = [0b011]`,
`AndNot(a, b)` leaves `[0b100]` in `a` while `AndNot(b, a)` leaves `[0b001]` in
`b`; so some equal-length inputs give different results in the two orders. -/
theorem AndNot_not_commutative :
    (readSlice (heapOf [0b110, 0b011]) ⟨0, 1⟩ = [0b110] ∧
     readSlice (heapOf [0b110, 0b011]) ⟨8, 1⟩ = [0b011] ∧
     (AndNot (heapOf [0b110, 0b011]) ⟨0, 1⟩ ⟨8, 1⟩).map (fun h' => readSlice h' ⟨0, 1⟩)
       = some [0b100] ∧
     (AndNot (heapOf [0b110, 0b011]) ⟨8, 1⟩ ⟨0, 1⟩).map (fun h' => readSlice h' ⟨8, 1⟩)
       = some [0b001]) ∧
    ∃ (h : Heap) (a b : Slice), a.Valid ∧ b.Valid ∧ a.len = b.len ∧ Separate a b ∧
      (AndNot h a b).map (fun h' => readSlice h' a)
        ≠ (AndNot h b a).map (fun h' => readSlice h' b) := by
  refine ⟨by decide, heapOf [0b110, 0b011], ⟨0, 1⟩, ⟨8, 1⟩, ?_⟩
  decide

/-- Claim C9: `And`, `Or` and `Xor` are commutative in their arguments.  For
equal-length buffers, running the operator with destination `a` and source `b`
and, from the same initial contents, with destination `b` and source `a`, both
calls return and leave the same words in their destinations. -/
theorem And_Or_Xor_commutative (op : Op) (h : Heap) (a b : Slice)
    (hop : op = .and ∨ op = .or ∨ op = .xor) (ha : a.Valid) (hb : b.Valid)
    (hlen : a.len = b.len) (hc : a.base = b.base ∨ Separate a b) :
    ∃ h1 h2, generate op h a b = some h1 ∧ generate op h b a = some h2 ∧
      readSlice h1 a = readSlice h2 b := by
  have hc' : b.base = a.base ∨ Separate b a := by
    unfold Separate at hc ⊢
    omega
  refine ⟨_, _, generate_eq op h a b ha hb (by omega) hc,
    generate_eq op h b a hb ha (by omega) hc', ?_⟩
  rw [readSlice_applyPrefix op h a b (by omega), readSlice_applyPrefix op h b a (by omega)]
  apply List.ext_getElem
  · simp [List.length_zipWith, readSlice_length, hlen]
  · intro i h1 h2
    rw [List.getElem_zipWith, List.getElem_zipWith]
    rcases hop with rfl | rfl | rfl
    · exact Nat.land_comm _ _
    · exact Nat.lor_comm _ _
    · exact Nat.xor_comm _ _

/-- Witness for C9: two disjoint 9-word buffers under `Or`. -/
theorem And_Or_Xor_commutative_witness :
    (⟨0, 9⟩ : Slice).Valid ∧ (⟨80, 9⟩ : Slice).Valid ∧ Separate ⟨0, 9⟩ ⟨80, 9⟩ ∧
    ∃ h1 h2, generate .or (heapOf (List.range 20)) ⟨0, 9⟩ ⟨80, 9⟩ = some h1 ∧
      generate .or (heapOf (List.range 20)) ⟨80, 9⟩ ⟨0, 9⟩ = some h2 ∧
      readSlice h1 ⟨0, 9⟩ = readSlice h2 ⟨80, 9⟩ :=
  ⟨by decide, by decide, by decide,
    And_Or_Xor_commutative .or (heapOf (List.range 20)) ⟨0, 9⟩ ⟨80, 9⟩ (Or.inr (Or.inl rfl))
      (by decide) (by decide) rfl (Or.inr (by decide))⟩

/-- Claim C10: self-operation with `And` or `Or` is the identity.  For every
buffer `a` of any length, `And(a, a)` and `Or(a, a)` return and leave the heap
exactly as it was, so every word of `a` is unchanged. -/
theorem And_Or_self_identity (h : Heap) (a : Slice) (ha : a.Valid) :
    (∃ h', And h a a = some h' ∧ h' = h ∧ ∀ i, i < a.len → word h' a i = word h a i) ∧
    (∃ h', Or h a a = some h' ∧ h' = h ∧ ∀ i, i < a.len → word h' a i = word h a i) := by
  have e1 : And h a a = some h := by
    show generate .and h a a = some h
    rw [generate_eq .and h a a ha ha (le_refl _) (Or.inl rfl),
      applyPrefix_self .and h a a.len (fun x => Nat.and_self x)]
  have e2 : Or h a a = some h := by
    show generate .or h a a = some h
    rw [generate_eq .or h a a ha ha (le_refl _) (Or.inl rfl),
      applyPrefix_self .or h a a.len (fun x => Nat.or_self x)]
  exact ⟨⟨h, e1, rfl, fun _ _ => rfl⟩, ⟨h, e2, rfl, fun _ _ => rfl⟩⟩

/-- Witness for C10: a 9-word buffer. -/
theorem And_Or_self_identity_witness :
    (⟨0, 9⟩ : Slice).Valid ∧
    ((∃ h', And (heapOf (List.range 9)) ⟨0, 9⟩ ⟨0, 9⟩ = some h' ∧ h' = heapOf (List.range 9) ∧
      ∀ i, i < 9 → word h' ⟨0, 9⟩ i = word (heapOf (List.range 9)) ⟨0, 9⟩ i) ∧
     (∃ h', Or (heapOf (List.range 9)) ⟨0, 9⟩ ⟨0, 9⟩ = some h' ∧ h' = heapOf (List.range 9) ∧
      ∀ i, i < 9 → word h' ⟨0, 9⟩ i = word (heapOf (List.range 9)) ⟨0, 9⟩ i)) :=
  ⟨by decide, And_Or_self_identity (heapOf (List.range 9)) ⟨0, 9⟩ (by decide)⟩

/-- Claim C11: self-operation with `Xor` or `AndNot` clears the buffer.  For every
buffer `a` of any length, `Xor(a, a)` and `AndNot(a, a)` return, every word of
`a` is 0 afterwards and the length is unchanged. -/
theorem Xor_AndNot_self_clears (h : Heap) (a : Slice) (ha : a.Valid) :
    (∃ h', Xor h a a = some h' ∧ (readSlice h' a).length = (readSlice h a).length ∧
      ∀ i, i < a.len → word h' a i = 0) ∧
    (∃ h', AndNot h a a = some h' ∧ (readSlice h' a).length = (readSlice h a).length ∧
      ∀ i, i < a.len → word h' a i = 0) := by
  refine ⟨⟨_, generate_eq .xor h a a ha ha (le_refl _) (Or.inl rfl), ?_, ?_⟩,
    ⟨_, generate_eq .andnot h a a ha ha (le_refl _) (Or.inl rfl), ?_, ?_⟩⟩
  · rw [readSlice_length, readSlice_length]
  · intro i hi
    rw [word_applyPrefix .xor h a a i hi]
    exact Nat.xor_self _
  · rw [readSlice_length, readSlice_length]
  · intro i hi
    rw [word_applyPrefix .andnot h a a i hi]
    exact and_not64_self _

/-- Witness for C11: a 9-word buffer. -/
theorem Xor_AndNot_self_clears_witness :
    (⟨0, 9⟩ : Slice).Valid ∧
    ((∃ h', Xor (heapOf (List.range 9)) ⟨0, 9⟩ ⟨0, 9⟩ = some h' ∧
      (readSlice h' ⟨0, 9⟩).length = (readSlice (heapOf (List.range 9)) ⟨0, 9⟩).length ∧
      ∀ i, i < 9 → word h' ⟨0, 9⟩ i = 0) ∧
    (∃ h', AndNot (heapOf (List.range 9)) ⟨0, 9⟩ ⟨0, 9⟩ = some h' ∧
      (readSlice h' ⟨0, 9⟩).length = (readSlice (heapOf (List.range 9)) ⟨0, 9⟩).length ∧
      ∀ i, i < 9 → word h' ⟨0, 9⟩ i = 0)) :=
  ⟨by decide, Xor_AndNot_self_clears (heapOf (List.range 9)) ⟨0, 9⟩ (by decide)⟩

/-- Claim C12: two zero-length buffers are valid input and the call is a no-op.
For each operator the routine returns the heap it was given; no iteration of
the block loop or of the tail loop is performed (control passes `body`, `tail`
and `done` once each), so no word is loaded or stored and the heap is the input
heap at every label. -/
theorem zero_length_noop (op : Op) (h : Heap) (a b : Slice) (ha0 : a.len = 0)
    (hb0 : b.len = 0) :
    generate op h a b = some h ∧ events op h a b = [] ∧
    (states op h a b).map State.pc = [.body, .tail, .done] ∧
    (∀ st, st ∈ states op h a b → st.heap = h) ∧
    readSlice h a = [] ∧ readSlice h b = [] := by
  obtain ⟨ab, al⟩ := a
  obtain ⟨bb, bl⟩ := b
  simp only at ha0 hb0
  subst ha0 hb0
  have hs : states op h ⟨ab, 0⟩ ⟨bb, 0⟩
      = [entry h ⟨ab, 0⟩ ⟨bb, 0⟩, { entry h ⟨ab, 0⟩ ⟨bb, 0⟩ with pc := .tail },
         { entry h ⟨ab, 0⟩ ⟨bb, 0⟩ with pc := .done }] := rfl
  refine ⟨rfl, ?_, ?_, ?_, rfl, rfl⟩
  · unfold events
    rw [hs]
    rfl
  · rw [hs]
    rfl
  · intro st hst
    rw [hs] at hst
    simp only [List.mem_cons, List.mem_singleton, List.mem_nil_iff, or_false] at hst
    rcases hst with rfl | rfl | rfl <;> rfl

/-- Witness for C12: empty buffers at two addresses. -/
theorem zero_length_noop_witness :
    (⟨0, 0⟩ : Slice).len = 0 ∧ (⟨64, 0⟩ : Slice).len = 0 ∧
    (generate .xor (heapOf [1, 2, 3]) ⟨0, 0⟩ ⟨64, 0⟩ = some (heapOf [1, 2, 3]) ∧
     events .xor (heapOf [1, 2, 3]) ⟨0, 0⟩ ⟨64, 0⟩ = [] ∧
     (states .xor (heapOf [1, 2, 3]) ⟨0, 0⟩ ⟨64, 0⟩).map State.pc = [.body, .tail, .done] ∧
     (∀ st, st ∈ states .xor (heapOf [1, 2, 3]) ⟨0, 0⟩ ⟨64, 0⟩ → st.heap = heapOf [1, 2, 3]) ∧
     readSlice (heapOf [1, 2, 3]) ⟨0, 0⟩ = [] ∧ readSlice (heapOf [1, 2, 3]) ⟨64, 0⟩ = []) :=
  ⟨rfl, rfl, zero_length_noop .xor (heapOf [1, 2, 3]) ⟨0, 0⟩ ⟨64, 0⟩ rfl rfl⟩

/-- Claim C13: iteration counts.  For every length `n = len(a)` the call performs
exactly `n / 8` block iterations, starting at words 0, 8, 16, ... and so
covering words `[0, 8 * (n / 8))`, followed by exactly `n % 8` tail iterations,
one for each remaining word; fewer than 8 words remain at every visit of `tail`;
for `n = 9` there is one block iteration on words 0..7 and one tail iteration on
word 8. -/
theorem iteration_counts (op : Op) (h : Heap) (a b : Slice) (ha : a.Valid) (hb : b.Valid)
    (hlen : a.len ≤ b.len) :
    events op h a b
      = (List.range' 0 (a.len / 8) 8).map (fun i => Event.block (a.base + 8 * i) (b.base + 8 * i))
        ++ (List.range' (8 * (a.len / 8)) (a.len % 8)).map
          (fun i => Event.word (a.base + 8 * i) (b.base + 8 * i)) ∧
    (events op h a b).countP Event.isBlock = a.len / 8 ∧
    (events op h a b).countP Event.isWord = a.len % 8 ∧
    (∀ w, w < a.len →
      (w < 8 * (a.len / 8) →
        Event.block (a.base + 8 * (8 * (w / 8))) (b.base + 8 * (8 * (w / 8))) ∈ events op h a b) ∧
      (8 * (a.len / 8) ≤ w → Event.word (a.base + 8 * w) (b.base + 8 * w) ∈ events op h a b)) ∧
    (∀ st, st ∈ states op h a b → st.pc = .tail → st.n < 8) ∧
    (a.len = 9 → events op h a b
      = [.block (a.base + 8 * 0) (b.base + 8 * 0), .word (a.base + 8 * 8) (b.base + 8 * 8)]) := by
  obtain ⟨hev, -⟩ := states_loop op h a b ha hb hlen
  refine ⟨hev, ?_, ?_, ?_, ?_, ?_⟩
  · rw [hev, List.countP_append, List.countP_map, List.countP_map]
    have e1 : List.countP (Event.isBlock ∘ fun i => Event.block (a.base + 8 * i) (b.base + 8 * i))
        (List.range' 0 (a.len / 8) 8) = a.len / 8 := by
      refine Eq.trans (List.countP_eq_length.mpr ?_) (List.length_range' _ _ _)
      intro _ _
      rfl
    have e2 : List.countP (Event.isBlock ∘ fun i => Event.word (a.base + 8 * i) (b.base + 8 * i))
        (List.range' (8 * (a.len / 8)) (a.len % 8)) = 0 := by
      rw [List.countP_eq_zero]
      intro _ _ hc
      cases hc
    rw [e1, e2, Nat.add_zero]
  · rw [hev, List.countP_append, List.countP_map, List.countP_map]
    have e1 : List.countP (Event.isWord ∘ fun i => Event.block (a.base + 8 * i) (b.base + 8 * i))
        (List.range' 0 (a.len / 8) 8) = 0 := by
      rw [List.countP_eq_zero]
      intro _ _ hc
      cases hc
    have e2 : List.countP (Event.isWord ∘ fun i => Event.word (a.base + 8 * i) (b.base + 8 * i))
        (List.range' (8 * (a.len / 8)) (a.len % 8)) = a.len % 8 := by
      refine Eq.trans (List.countP_eq_length.mpr ?_) (List.length_range' _ _ _)
      intro _ _
      rfl
    rw [e1, e2, Nat.zero_add]
  · intro w hw
    refine ⟨?_, ?_⟩
    · intro hw8
      rw [hev]
      apply List.mem_append_left
      apply List.mem_map.mpr
      refine ⟨8 * (w / 8), ?_, rfl⟩
      rw [List.mem_range']
      exact ⟨w / 8, by omega, by omega⟩
    · intro hw8
      rw [hev]
      apply List.mem_append_right
      apply List.mem_map.mpr
      refine ⟨w, ?_, rfl⟩
      rw [List.mem_range'_1]
      omega
  · intro st hst hpc
    exact ((states_reach op h a b ha hb hlen).1 st hst).tail hpc
  · intro h9
    rw [hev, h9]
    rfl

/-- Witness for C13: two disjoint 9-word buffers. -/
theorem iteration_counts_witness :
    (⟨0, 9⟩ : Slice).Valid ∧ (⟨80, 9⟩ : Slice).Valid ∧ (⟨0, 9⟩ : Slice).len ≤ (⟨80, 9⟩ : Slice).len ∧
    (events .or (heapOf (List.range 20)) ⟨0, 9⟩ ⟨80, 9⟩
      = (List.range' 0 (9 / 8) 8).map (fun i => Event.block (0 + 8 * i) (80 + 8 * i))
        ++ (List.range' (8 * (9 / 8)) (9 % 8)).map (fun i => Event.word (0 + 8 * i) (80 + 8 * i)) ∧
    (events .or (heapOf (List.range 20)) ⟨0, 9⟩ ⟨80, 9⟩).countP Event.isBlock = 9 / 8 ∧
    (events .or (heapOf (List.range 20)) ⟨0, 9⟩ ⟨80, 9⟩).countP Event.isWord = 9 % 8 ∧
    (∀ w, w < 9 →
      (w < 8 * (9 / 8) →
        Event.block (0 + 8 * (8 * (w / 8))) (80 + 8 * (8 * (w / 8)))
          ∈ events .or (heapOf (List.range 20)) ⟨0, 9⟩ ⟨80, 9⟩) ∧
      (8 * (9 / 8) ≤ w →
        Event.word (0 + 8 * w) (80 + 8 * w) ∈ events .or (heapOf (List.range 20)) ⟨0, 9⟩ ⟨80, 9⟩)) ∧
    (∀ st, st ∈ states .or (heapOf (List.range 20)) ⟨0, 9⟩ ⟨80, 9⟩ → st.pc = .tail → st.n < 8) ∧
    ((9 : Nat) = 9 → events .or (heapOf (List.range 20)) ⟨0, 9⟩ ⟨80, 9⟩
      = [.block (0 + 8 * 0) (80 + 8 * 0), .word (0 + 8 * 8) (80 + 8 * 8)])) :=
  ⟨by decide, by decide, by decide,
    iteration_counts .or (heapOf (List.range 20)) ⟨0, 9⟩ ⟨80, 9⟩ (by decide) (by decide)
      (by decide)⟩

/-- Claim C14: every access is in bounds when `len(a) == len(b)`.  At every label
of a call the word offset `k` of both pointers plus the remaining count is
`len(a)`; a block iteration starts only with at least 8 words left and its
eight word addresses lie inside `a` and inside `b`; a tail iteration starts
only with at least one word left and its address lies inside `a` and inside
`b`; so no basic block is undefined and the call returns. -/
theorem accesses_in_bounds (op : Op) (h : Heap) (a b : Slice) (ha : a.Valid) (hb : b.Valid)
    (hlen : a.len = b.len) :
    (generate op h a b).isSome = true ∧
    ∀ st, st ∈ states op h a b →
      (∃ k, st.aBase = a.base + 8 * k ∧ st.bBase = b.base + 8 * k ∧ k + st.n = a.len) ∧
      (∀ x y, iteration st = some (.block x y) →
        8 ≤ st.n ∧ ∀ j, j < 8 →
          inBounds a (st.aBase + 8 * j) = true ∧ inBounds b (st.bBase + 8 * j) = true) ∧
      (∀ x y, iteration st = some (.word x y) →
        1 ≤ st.n ∧ inBounds a st.aBase = true ∧ inBounds b st.bBase = true) ∧
      (step op a b st).isSome = true := by
  have hva := ha
  have hvb := hb
  unfold Slice.Valid W64 at hva hvb
  obtain ⟨-, st', -, hrun, -, -⟩ := states_loop op h a b ha hb (by omega)
  refine ⟨?_, ?_⟩
  · unfold generate
    rw [hrun]
    rfl
  · intro st hst
    have hr := (states_reach op h a b ha hb (by omega)).1 st hst
    obtain ⟨k, hA, hB, hcount⟩ := hr.regs
    refine ⟨⟨k, hA, hB, by omega⟩, ?_, ?_, ?_⟩
    · intro x y hit
      obtain ⟨-, hn, -, -⟩ := iteration_block_inv st x y hit
      rw [toInt64_small (by omega)] at hn
      have hn8 : 8 ≤ st.n := by omega
      refine ⟨hn8, ?_⟩
      intro j hj
      exact ⟨inBounds_of (by omega) (by omega) (by omega),
        inBounds_of (by omega) (by omega) (by omega)⟩
    · intro x y hit
      obtain ⟨-, hn, -, -⟩ := iteration_word_inv st x y hit
      exact ⟨by omega, inBounds_of (by omega) (by omega) (by omega),
        inBounds_of (by omega) (by omega) (by omega)⟩
    · by_cases hpc : st.pc = .done
      · simp [step, hpc]
      · obtain ⟨t, hs, -⟩ := step_reach op a b st ha hb (by omega) hr hpc
        rw [hs]
        rfl

/-- Witness for C14: two disjoint 17-word buffers. -/
theorem accesses_in_bounds_witness :
    (⟨0, 17⟩ : Slice).Valid ∧ (⟨136, 17⟩ : Slice).Valid ∧
    (⟨0, 17⟩ : Slice).len = (⟨136, 17⟩ : Slice).len ∧
    ((generate .and (heapOf (List.range 34)) ⟨0, 17⟩ ⟨136, 17⟩).isSome = true ∧
    ∀ st, st ∈ states .and (heapOf (List.range 34)) ⟨0, 17⟩ ⟨136, 17⟩ →
      (∃ k, st.aBase = 0 + 8 * k ∧ st.bBase = 136 + 8 * k ∧ k + st.n = 17) ∧
      (∀ x y, iteration st = some (.block x y) →
        8 ≤ st.n ∧ ∀ j, j < 8 →
          inBounds ⟨0, 17⟩ (st.aBase + 8 * j) = true ∧
          inBounds ⟨136, 17⟩ (st.bBase + 8 * j) = true) ∧
      (∀ x y, iteration st = some (.word x y) →
        1 ≤ st.n ∧ inBounds ⟨0, 17⟩ st.aBase = true ∧ inBounds ⟨136, 17⟩ st.bBase = true) ∧
      (step .and ⟨0, 17⟩ ⟨136, 17⟩ st).isSome = true) :=
  ⟨by decide, by decide, rfl,
    accesses_in_bounds .and (heapOf (List.range 34)) ⟨0, 17⟩ ⟨136, 17⟩ (by decide) (by decide)
      rfl⟩

/-- Claim C15: termination.  For every length the call returns, in a state at
`done` whose count is zero, and that state is the last of the trace; across
every basic block the count goes down by 8 (block iteration), down by 1 (tail
iteration) or stays (a guard that jumps), and `done` is entered exactly from
`tail` with count zero; the count is never negative and never above `len(a)`. -/
theorem terminates_at_zero (op : Op) (h : Heap) (a b : Slice) (ha : a.Valid) (hb : b.Valid)
    (hlen : a.len ≤ b.len) :
    (∃ st', run op a b (a.len % W64 + 2) (entry h a b) = some st' ∧
      (states op h a b).getLast? = some st' ∧ st'.pc = .done ∧ st'.n = 0 ∧
      generate op h a b = some st'.heap) ∧
    List.Chain' (fun s t => step op a b s = some t ∧ Advance s t ∧
      (t.pc = .done ↔ s.pc = .tail ∧ s.n = 0)) (states op h a b) ∧
    (∀ s t, Advance s t → iteration s ≠ none → t.n < s.n) ∧
    (∀ st, st ∈ states op h a b →
      0 ≤ toInt64 st.n ∧ st.n ≤ a.len ∧ (st.pc = .done → st.n = 0)) := by
  have hva := ha
  unfold Slice.Valid W64 at hva
  obtain ⟨-, st', hlast, hrun, hdone, hzero⟩ := states_loop op h a b ha hb hlen
  obtain ⟨hall, hchain⟩ := states_reach op h a b ha hb hlen
  refine ⟨⟨st', hrun, hlast, hdone, hzero, ?_⟩, hchain, ?_, ?_⟩
  · unfold generate
    rw [hrun]
    rfl
  · intro s t hadv hit
    unfold Advance at hadv
    rcases hi : iteration s with _ | e
    · exact absurd hi hit
    · rw [hi] at hadv
      cases e with
      | block x y =>
        have h3 : t.n + 4 * unroll = s.n := hadv.2.2
        unfold unroll at h3
        omega
      | word x y =>
        have h3 : t.n + 1 = s.n := hadv.2.2
        omega
  · intro st hst
    have hr := hall st hst
    obtain ⟨k, -, -, hcount⟩ := hr.regs
    refine ⟨?_, by omega, hr.done⟩
    rw [toInt64_small (by omega)]
    omega

/-- Witness for C15: two disjoint 9-word buffers. -/
theorem terminates_at_zero_witness :
    (⟨0, 9⟩ : Slice).Valid ∧ (⟨80, 9⟩ : Slice).Valid ∧ (⟨0, 9⟩ : Slice).len ≤ (⟨80, 9⟩ : Slice).len ∧
    ((∃ st', run .xor ⟨0, 9⟩ ⟨80, 9⟩ (9 % W64 + 2) (entry (heapOf (List.range 20)) ⟨0, 9⟩ ⟨80, 9⟩)
        = some st' ∧
      (states .xor (heapOf (List.range 20)) ⟨0, 9⟩ ⟨80, 9⟩).getLast? = some st' ∧
      st'.pc = .done ∧ st'.n = 0 ∧
      generate .xor (heapOf (List.range 20)) ⟨0, 9⟩ ⟨80, 9⟩ = some st'.heap) ∧
    List.Chain' (fun s t => step .xor ⟨0, 9⟩ ⟨80, 9⟩ s = some t ∧ Advance s t ∧
      (t.pc = .done ↔ s.pc = .tail ∧ s.n = 0))
      (states .xor (heapOf (List.range 20)) ⟨0, 9⟩ ⟨80, 9⟩) ∧
    (∀ s t, Advance s t → iteration s ≠ none → t.n < s.n) ∧
    (∀ st, st ∈ states .xor (heapOf (List.range 20)) ⟨0, 9⟩ ⟨80, 9⟩ →
      0 ≤ toInt64 st.n ∧ st.n ≤ 9 ∧ (st.pc = .done → st.n = 0))) :=
  ⟨by decide, by decide, by decide,
    terminates_at_zero .xor (heapOf (List.range 20)) ⟨0, 9⟩ ⟨80, 9⟩ (by decide) (by decide)
      (by decide)⟩

/-- Claim C16: byte-level and word-level bookkeeping agree.  A block is 2 lanes
of 32 bytes at byte offsets 0 and 32, that is 64 bytes, 8 consecutive 64-bit
words, 512 bits; the two lanes are word offsets 0..3 and 4..7, with no gap and
no overlap, and a block iteration writes the combined word at exactly those
eight addresses.  A block iteration advances both pointers by 64 bytes and
takes 8 off the count; a tail iteration advances both by 8 bytes and takes 1
off; so at every label (bytes advanced) / 8 + remaining count = `len(a)`, for
both pointers. -/
theorem byte_word_bookkeeping (op : Op) (h : Heap) (a b : Slice) (ha : a.Valid)
    (hb : b.Valid) (hlen : a.len ≤ b.len) :
    (size = 32 ∧ unroll = 2 ∧ blocksize = 64 ∧ blocksize = 8 * (4 * unroll) ∧
      8 * blocksize = 512 ∧ size * 0 = 0 ∧ size * 1 = 32 ∧
      (List.range (size / 8)).map (fun w => size * 0 + 8 * w)
          ++ (List.range (size / 8)).map (fun w => size * 1 + 8 * w)
        = (List.range 8).map (fun j => 8 * j)) ∧
    (∀ s, s ∈ states op h a b → ∀ x y, iteration s = some (.block x y) →
      ∃ t, step op a b s = some t ∧
        (∀ j, j < 8 → t.heap (s.aBase + 8 * j)
          = wordOp op (s.heap (s.aBase + 8 * j)) (s.heap (s.bBase + 8 * j))) ∧
        (∀ p, (∀ j, j < 8 → p ≠ s.aBase + 8 * j) → t.heap p = s.heap p)) ∧
    List.Chain' (fun s t =>
      (∀ x y, iteration s = some (.block x y) →
        t.aBase = s.aBase + 64 ∧ t.bBase = s.bBase + 64 ∧ t.n + 8 = s.n) ∧
      (∀ x y, iteration s = some (.word x y) →
        t.aBase = s.aBase + 8 ∧ t.bBase = s.bBase + 8 ∧ t.n + 1 = s.n) ∧
      (iteration s = none → t.aBase = s.aBase ∧ t.bBase = s.bBase ∧ t.n = s.n))
      (states op h a b) ∧
    (∀ st, st ∈ states op h a b →
      a.base ≤ st.aBase ∧ b.base ≤ st.bBase ∧
      (st.aBase - a.base) / 8 + st.n = a.len ∧ (st.bBase - b.base) / 8 + st.n = a.len) := by
  have hva := ha
  unfold Slice.Valid W64 at hva
  obtain ⟨hall, hchain⟩ := states_reach op h a b ha hb hlen
  refine ⟨by decide, ?_, ?_, ?_⟩
  · intro s hs x y hit
    obtain ⟨hpc, hn, -, -⟩ := iteration_block_inv s x y hit
    obtain ⟨k, hinv⟩ := (hall s hs).regs
    have hcount := hinv.count
    rw [toInt64_small (by omega)] at hn
    obtain ⟨t, hb1, -, -, -, -, -, hcov, hframe⟩ :=
      bodyBlock_effect op a b k s ha hb hlen hinv (by omega)
    refine ⟨t, ?_, hcov, hframe⟩
    rw [step_body_block op a b s hpc (by omega) (by omega)]
    exact hb1
  · refine List.Chain'.imp ?_ hchain
    intro s t hst
    have hadv := hst.2.1
    unfold Advance blocksize size unroll at hadv
    refine ⟨?_, ?_, ?_⟩
    · intro x y hit
      rw [hit] at hadv
      exact hadv
    · intro x y hit
      rw [hit] at hadv
      exact hadv
    · intro hit
      rw [hit] at hadv
      exact hadv
  · intro st hst
    obtain ⟨k, hA, hB, hcount⟩ := (hall st hst).regs
    rw [hA, hB]
    refine ⟨by omega, by omega, ?_, ?_⟩ <;> omega

/-- Witness for C16: two disjoint 17-word buffers. -/
theorem byte_word_bookkeeping_witness :
    (⟨0, 17⟩ : Slice).Valid ∧ (⟨136, 17⟩ : Slice).Valid ∧
    (⟨0, 17⟩ : Slice).len ≤ (⟨136, 17⟩ : Slice).len ∧
    ((size = 32 ∧ unroll = 2 ∧ blocksize = 64 ∧ blocksize = 8 * (4 * unroll) ∧
      8 * blocksize = 512 ∧ size * 0 = 0 ∧ size * 1 = 32 ∧
      (List.range (size / 8)).map (fun w => size * 0 + 8 * w)
          ++ (List.range (size / 8)).map (fun w => size * 1 + 8 * w)
        = (List.range 8).map (fun j => 8 * j)) ∧
    (∀ s, s ∈ states .or (heapOf (List.range 34)) ⟨0, 17⟩ ⟨136, 17⟩ →
      ∀ x y, iteration s = some (.block x y) →
      ∃ t, step .or ⟨0, 17⟩ ⟨136, 17⟩ s = some t ∧
        (∀ j, j < 8 → t.heap (s.aBase + 8 * j)
          = wordOp .or (s.heap (s.aBase + 8 * j)) (s.heap (s.bBase + 8 * j))) ∧
        (∀ p, (∀ j, j < 8 → p ≠ s.aBase + 8 * j) → t.heap p = s.heap p)) ∧
    List.Chain' (fun s t =>
      (∀ x y, iteration s = some (.block x y) →
        t.aBase = s.aBase + 64 ∧ t.bBase = s.bBase + 64 ∧ t.n + 8 = s.n) ∧
      (∀ x y, iteration s = some (.word x y) →
        t.aBase = s.aBase + 8 ∧ t.bBase = s.bBase + 8 ∧ t.n + 1 = s.n) ∧
      (iteration s = none → t.aBase = s.aBase ∧ t.bBase = s.bBase ∧ t.n = s.n))
      (states .or (heapOf (List.range 34)) ⟨0, 17⟩ ⟨136, 17⟩) ∧
    (∀ st, st ∈ states .or (heapOf (List.range 34)) ⟨0, 17⟩ ⟨136, 17⟩ →
      0 ≤ st.aBase ∧ 136 ≤ st.bBase ∧
      (st.aBase - 0) / 8 + st.n = 17 ∧ (st.bBase - 136) / 8 + st.n = 17)) :=
  ⟨by decide, by decide, by decide,
    byte_word_bookkeeping .or (heapOf (List.range 34)) ⟨0, 17⟩ ⟨136, 17⟩ (by decide)
      (by decide) (by decide)⟩

/-- Claim C17: no runtime length validation; the word count comes from `len(a)`
alone.  For every `a` and `b` with `len(b) >= len(a)` the count register is
loaded with `len(a)`, each routine returns without failure and sets
`a[i] = op(old a[i], b[i])` for every `i < len(a)`; the outcome is the same for
any other source length that is at least `len(a)`, and does not depend on the
words of `b` at indices `>= len(a)`. -/
theorem length_taken_from_destination (op : Op) (h : Heap) (a b : Slice) (ha : a.Valid)
    (hb : b.Valid) (hlen : a.len ≤ b.len) (hc : a.base = b.base ∨ Separate a b) :
    (entry h a b).n = a.len ∧
    ∃ h', generate op h a b = some h' ∧
      (∀ i, i < a.len → word h' a i = wordOp op (word h a i) (word h b i)) ∧
      (∀ m, a.len ≤ m → (⟨b.base, m⟩ : Slice).Valid →
        (a.base = b.base ∨ Separate a ⟨b.base, m⟩) → generate op h a ⟨b.base, m⟩ = some h') ∧
      (∀ g : Heap, (∀ p, p < b.base + 8 * a.len ∨ b.base + 8 * b.len ≤ p → g p = h p) →
        ∃ g', generate op g a b = some g' ∧ readSlice g' a = readSlice h' a) := by
  have hv := ha
  unfold Slice.Valid W64 at hv
  refine ⟨?_, _, generate_eq op h a b ha hb hlen hc, ?_, ?_, ?_⟩
  · show a.len % W64 = a.len
    unfold W64; omega
  · intro i hi
    exact word_applyPrefix op h a b i hi
  · intro m hm hbm hcm
    exact generate_eq op h a ⟨b.base, m⟩ ha hbm hm hcm
  · intro g hg
    refine ⟨_, generate_eq op g a b ha hb hlen hc, ?_⟩
    apply readSlice_congr
    intro i hi
    rw [word_applyPrefix op g a b i hi, word_applyPrefix op h a b i hi]
    have e1 : word g a i = word h a i := by
      unfold word
      apply hg
      unfold Separate at hc
      omega
    have e2 : word g b i = word h b i := by
      unfold word
      apply hg
      omega
    rw [e1, e2]

/-- Witness for C17: a 9-word destination and an 11-word source. -/
theorem length_taken_from_destination_witness :
    (⟨0, 9⟩ : Slice).Valid ∧ (⟨80, 11⟩ : Slice).Valid ∧ (⟨0, 9⟩ : Slice).len ≤ (⟨80, 11⟩ : Slice).len ∧
    Separate ⟨0, 9⟩ ⟨80, 11⟩ ∧
    ((entry (heapOf (List.range 21)) ⟨0, 9⟩ ⟨80, 11⟩).n = 9 ∧
    ∃ h', generate .and (heapOf (List.range 21)) ⟨0, 9⟩ ⟨80, 11⟩ = some h' ∧
      (∀ i, i < 9 → word h' ⟨0, 9⟩ i = wordOp .and (word (heapOf (List.range 21)) ⟨0, 9⟩ i)
        (word (heapOf (List.range 21)) ⟨80, 11⟩ i)) ∧
      (∀ m, 9 ≤ m → (⟨80, m⟩ : Slice).Valid →
        ((0 : Nat) = 80 ∨ Separate ⟨0, 9⟩ ⟨80, m⟩) →
        generate .and (heapOf (List.range 21)) ⟨0, 9⟩ ⟨80, m⟩ = some h') ∧
      (∀ g : Heap, (∀ p, p < 80 + 8 * 9 ∨ 80 + 8 * 11 ≤ p → g p = heapOf (List.range 21) p) →
        ∃ g', generate .and g ⟨0, 9⟩ ⟨80, 11⟩ = some g' ∧
          readSlice g' ⟨0, 9⟩ = readSlice h' ⟨0, 9⟩)) :=
  ⟨by decide, by decide, by decide, by decide,
    length_taken_from_destination .and (heapOf (List.range 21)) ⟨0, 9⟩ ⟨80, 11⟩ (by decide)
      (by decide) (by decide) (Or.inr (by decide))⟩

/-- Counterexample for C18: with `a` and `b` the same 2-word buffer `[5, 9]`, both
calls return, the first `Xor(a, a)` leaves `[0, 0]` and so does the second: the
original contents are not restored. -/
theorem Xor_twice_self_not_restored :
    (⟨0, 2⟩ : Slice).Valid ∧ (⟨0, 2⟩ : Slice).len = (⟨0, 2⟩ : Slice).len ∧
    readSlice (heapOf [5, 9]) ⟨0, 2⟩ = [5, 9] ∧
    (Xor (heapOf [5, 9]) ⟨0, 2⟩ ⟨0, 2⟩).map (fun h1 => readSlice h1 ⟨0, 2⟩) = some [0, 0] ∧
    ((Xor (heapOf [5, 9]) ⟨0, 2⟩ ⟨0, 2⟩).bind (fun h1 => Xor h1 ⟨0, 2⟩ ⟨0, 2⟩)).map
        (fun h2 => readSlice h2 ⟨0, 2⟩) = some [0, 0] ∧
    ((Xor (heapOf [5, 9]) ⟨0, 2⟩ ⟨0, 2⟩).bind (fun h1 => Xor h1 ⟨0, 2⟩ ⟨0, 2⟩)).map
        (fun h2 => readSlice h2 ⟨0, 2⟩) ≠ some (readSlice (heapOf [5, 9]) ⟨0, 2⟩) := by
  decide

/-- Claim C18, amended: `Xor` is an involution in its second argument for distinct
buffers.  For equal-length buffers `a` and `b` that do not overlap, the first
`Xor(a, b)` returns and leaves `b` as it was, the second `Xor(a, b)` returns,
and `a` then holds its original contents again. -/
theorem Xor_twice_restores_distinct (h : Heap) (a b : Slice) (ha : a.Valid) (hb : b.Valid)
    (hlen : a.len = b.len) (hd : Separate a b) :
    ∃ h1 h2, Xor h a b = some h1 ∧ readSlice h1 b = readSlice h b ∧
      Xor h1 a b = some h2 ∧ readSlice h2 a = readSlice h a := by
  have hsame : readSlice (applyPrefix .xor h a b a.len) b = readSlice h b :=
    readSlice_src_applyPrefix .xor h a b hd
  refine ⟨_, _, generate_eq .xor h a b ha hb (by omega) (Or.inr hd), hsame,
    generate_eq .xor _ a b ha hb (by omega) (Or.inr hd), ?_⟩
  apply readSlice_congr
  intro i hi
  rw [word_applyPrefix .xor _ a b i hi, word_of_readSlice_eq _ _ b hsame i (by omega),
    word_applyPrefix .xor h a b i hi]
  exact wordOp_xor_xor _ _

/-- Witness for C18: two disjoint 9-word buffers. -/
theorem Xor_twice_restores_distinct_witness :
    (⟨0, 9⟩ : Slice).Valid ∧ (⟨80, 9⟩ : Slice).Valid ∧
    (⟨0, 9⟩ : Slice).len = (⟨80, 9⟩ : Slice).len ∧ Separate ⟨0, 9⟩ ⟨80, 9⟩ ∧
    ∃ h1 h2, Xor (heapOf (List.range 20)) ⟨0, 9⟩ ⟨80, 9⟩ = some h1 ∧
      readSlice h1 ⟨80, 9⟩ = readSlice (heapOf (List.range 20)) ⟨80, 9⟩ ∧
      Xor h1 ⟨0, 9⟩ ⟨80, 9⟩ = some h2 ∧
      readSlice h2 ⟨0, 9⟩ = readSlice (heapOf (List.range 20)) ⟨0, 9⟩ :=
  ⟨by decide, by decide, rfl, by decide,
    Xor_twice_restores_distinct (heapOf (List.range 20)) ⟨0, 9⟩ ⟨80, 9⟩ (by decide) (by decide)
      rfl (by decide)⟩

/-- Claim C19: `And`, `Or` and `AndNot` are idempotent under repeated application
with the same source.  For equal-length buffers both calls return and the
second leaves the destination exactly as the first left it. -/
theorem And_Or_AndNot_idempotent (op : Op) (h : Heap) (a b : Slice)
    (hop : op = .and ∨ op = .or ∨ op = .andnot) (ha : a.Valid) (hb : b.Valid)
    (hlen : a.len = b.len) (hc : a.base = b.base ∨ Separate a b) :
    ∃ h1 h2, generate op h a b = some h1 ∧ generate op h1 a b = some h2 ∧
      readSlice h2 a = readSlice h1 a := by
  refine ⟨_, _, generate_eq op h a b ha hb (by omega) hc,
    generate_eq op _ a b ha hb (by omega) hc, ?_⟩
  apply readSlice_congr
  intro i hi
  rw [word_applyPrefix op _ a b i hi]
  rcases hc with hc | hc
  · have e : word (applyPrefix op h a b a.len) b i = word (applyPrefix op h a b a.len) a i := by
      unfold word; rw [hc]
    have e' : word h b i = word h a i := by
      unfold word; rw [hc]
    rw [e, word_applyPrefix op h a b i hi, e']
    exact wordOp_self_idem op hop _
  · rw [word_of_readSlice_eq _ _ b (readSlice_src_applyPrefix op h a b hc) i (by omega),
      word_applyPrefix op h a b i hi]
    exact wordOp_idem op hop _ _

/-- Witness for C19: two disjoint 9-word buffers under `AndNot`. -/
theorem And_Or_AndNot_idempotent_witness :
    (⟨0, 9⟩ : Slice).Valid ∧ (⟨80, 9⟩ : Slice).Valid ∧ Separate ⟨0, 9⟩ ⟨80, 9⟩ ∧
    ∃ h1 h2, generate .andnot (heapOf (List.range 20)) ⟨0, 9⟩ ⟨80, 9⟩ = some h1 ∧
      generate .andnot h1 ⟨0, 9⟩ ⟨80, 9⟩ = some h2 ∧
      readSlice h2 ⟨0, 9⟩ = readSlice h1 ⟨0, 9⟩ :=
  ⟨by decide, by decide, by decide,
    And_Or_AndNot_idempotent .andnot (heapOf (List.range 20)) ⟨0, 9⟩ ⟨80, 9⟩
      (Or.inr (Or.inr rfl)) (by decide) (by decide) rfl (Or.inr (by decide))⟩

end Simd
